import Mathlib

/-!
# Verification of the AlphaFold input-preparation core (`colabdesign/af/prep.py`)

This file gives a shallow embedding of the input-preparation module of the
ColabDesign repository and proves (or refutes) the specification claims about
it.  The embedded functions are:

* `make_fixed_size` (with its helpers `resolveDim`, `padTensor`, `padData`):
  the fixed-size padding engine for feature maps;
* `repeat_idx` and the hallucination residue-index assembly;
* the residue-index chaining of `prep_pdb` (`shiftChains`);
* `add_cb` (missing-CB imputation) — the geometric helper `_np_get_cb` lives
  outside the sources given here and is modelled from the spec;
* the design-option snapshotting (`copy_dict` before `restart`) shared by the
  four protocol-assembly procedures, modelled over an explicit heap so that
  aliasing and in-place mutation are meaningful.

Tensors are dense numpy-style arrays: an explicit shape plus row-major flat
data.  All numeric entries are exact (`Int`/`ℚ`); every arithmetic operation
performed by the modelled code paths is exact on the values it is applied to.
-/

namespace AfPrep

/-! ## Dense tensors in row-major layout -/

/-- A dense numeric tensor in row-major (numpy) layout: an explicit shape and
the flattened data. -/
structure Tensor where
  shape : List Nat
  data : List Int
deriving DecidableEq

/-- Row-major enumeration of all multi-indices of a shape. -/
def indices : List Nat → List (List Nat)
  | [] => [[]]
  | n :: s => (List.range n).flatMap fun i => (indices s).map (i :: ·)

/-- Row-major flat offset of a multi-index inside a shape. -/
def flatIndex : List Nat → List Nat → Nat
  | _ :: s, i :: ix => i * s.prod + flatIndex s ix
  | _, _ => 0

/-- `inB ix s`: the multi-index `ix` addresses a cell of shape `s`. -/
def inB (ix s : List Nat) : Bool :=
  ix.length = s.length && (List.zip ix s).all fun p => p.1 < p.2

/-- Read the cell of `t` addressed by multi-index `ix` (0 outside the data). -/
def Tensor.get (t : Tensor) (ix : List Nat) : Int :=
  t.data.getD (flatIndex t.shape ix) 0

/-- Trailing zero-padding: materialize `t` at shape `target`, keeping every
original cell and filling the new trailing cells with `0`.  This is the
semantics of `tf.pad(v, [(0, p - s), ...])` followed by `np.asarray`. -/
def padData (t : Tensor) (target : List Nat) : Tensor :=
  ⟨target, (indices target).map fun ix => if inB ix t.shape then t.get ix else 0⟩

theorem length_indices (s : List Nat) : (indices s).length = s.prod := by
  induction s with
  | nil => rfl
  | cons n s ih =>
    simp [indices, List.length_flatMap, List.map_map, Function.comp_def, ih,
      List.map_const', Nat.mul_comm]

theorem mem_indices_inB {s : List Nat} {ix : List Nat} (h : ix ∈ indices s) :
    inB ix s = true := by
  induction s generalizing ix with
  | nil => simp [indices] at h; simp [h, inB]
  | cons n s ih =>
    simp only [indices, List.mem_flatMap, List.mem_map, List.mem_range] at h
    obtain ⟨i, hi, ix', hix', rfl⟩ := h
    have := ih hix'
    simp only [inB, List.length_cons, List.zip_cons_cons, List.all_cons,
      Bool.and_eq_true, decide_eq_true_eq] at *
    exact ⟨by omega, by tauto, this.2⟩

/-- Reading inside a `flatMap` over `List.range` whose blocks all have the
same length `m`. -/
theorem getD_flatMap_range {α : Type} (g : Nat → List α) (m : Nat)
    (hg : ∀ j, (g j).length = m) (d : α) :
    ∀ n q r, q < n → r < m →
      ((List.range n).flatMap g).getD (q * m + r) d = (g q).getD r d := by
  intro n
  induction n with
  | zero => intro q r hq _; omega
  | succ n ih =>
    intro q r hq hr
    rw [List.range_succ, List.flatMap_append]
    have hlen : ((List.range n).flatMap g).length = n * m := by
      simp [List.length_flatMap, Function.comp_def, hg, List.map_const', Nat.mul_comm]
    rcases Nat.lt_or_ge q n with hqn | hqn
    · have hpos : q * m + r < n * m := by
        calc q * m + r < q * m + m := by omega
        _ = (q + 1) * m := by ring
        _ ≤ n * m := Nat.mul_le_mul_right m hqn
      rw [List.getD_append _ _ _ _ (by omega), ih q r hqn hr]
    · have hq' : q = n := by omega
      subst hq'
      rw [List.getD_append_right _ _ _ _ (by omega)]
      simp [List.flatMap_singleton, hlen]

theorem flatIndex_lt {s ix : List Nat} (h : inB ix s = true) :
    flatIndex s ix < s.prod := by
  induction s generalizing ix with
  | nil =>
    simp only [inB, List.length_nil, List.length_eq_zero, List.zip_nil_right,
      List.all_nil, Bool.and_true, decide_eq_true_eq] at h
    subst h
    simp [flatIndex]
  | cons n s ih =>
    match ix with
    | [] => simp [inB] at h
    | i :: ix' =>
      simp only [inB, List.length_cons, List.zip_cons_cons, List.all_cons,
        Bool.and_eq_true, decide_eq_true_eq, Nat.add_right_cancel_iff] at h
      have h' : inB ix' s = true := by
        simp [inB, h.1, h.2.2]
      have := ih h'
      have hi : i < n := h.2.1
      simp only [flatIndex, List.prod_cons]
      calc i * s.prod + flatIndex s ix' < i * s.prod + s.prod := by omega
        _ = (i + 1) * s.prod := by ring
        _ ≤ n * s.prod := Nat.mul_le_mul_right _ hi

/-- The row-major enumeration is ordered by `flatIndex`: reading the
enumeration at offset `flatIndex s ix` gives back `ix`. -/
theorem indices_getD_flatIndex {s ix : List Nat} (h : inB ix s = true) :
    (indices s).getD (flatIndex s ix) [] = ix := by
  induction s generalizing ix with
  | nil =>
    simp only [inB, List.length_nil, List.length_eq_zero, List.zip_nil_right,
      List.all_nil, Bool.and_true, decide_eq_true_eq] at h
    subst h
    simp [flatIndex, indices]
  | cons n s ih =>
    match ix with
    | [] => simp [inB] at h
    | i :: ix' =>
      simp only [inB, List.length_cons, List.zip_cons_cons, List.all_cons,
        Bool.and_eq_true, decide_eq_true_eq, Nat.add_right_cancel_iff] at h
      have h' : inB ix' s = true := by simp [inB, h.1, h.2.2]
      have hblock : ∀ j, ((fun i => (indices s).map (i :: ·)) j).length = s.prod := by
        intro j; simp [length_indices]
      simp only [indices, flatIndex, List.prod_cons]
      rw [getD_flatMap_range _ _ hblock [] n i (flatIndex s ix') h.2.1 (flatIndex_lt h')]
      have hr : flatIndex s ix' < (indices s).length := by
        rw [length_indices]; exact flatIndex_lt h'
      rw [List.getD_eq_getElem _ _ (by simpa using hr), List.getElem_map,
        ← List.getD_eq_getElem _ [] hr, ih h']

/-- Conversely, the `flatIndex` of the `i`-th enumerated multi-index is `i`. -/
theorem flatIndex_indices_getD {s : List Nat} :
    ∀ i, i < s.prod → flatIndex s ((indices s).getD i []) = i := by
  induction s with
  | nil =>
    intro i hi
    simp only [List.prod_nil] at hi
    have : i = 0 := by omega
    subst this
    rfl
  | cons n s ih =>
    intro i hi
    simp only [List.prod_cons] at hi
    have hprod : 0 < s.prod := by
      rcases Nat.eq_zero_or_pos s.prod with h0 | h0
      · rw [h0, Nat.mul_zero] at hi; omega
      · exact h0
    have hq : i / s.prod < n :=
      Nat.div_lt_of_lt_mul (Nat.lt_of_lt_of_eq hi (Nat.mul_comm n s.prod))
    have hr : i % s.prod < s.prod := Nat.mod_lt _ hprod
    have hblock : ∀ j, ((fun i => (indices s).map (i :: ·)) j).length = s.prod := by
      intro j; simp [length_indices]
    have hqr : i / s.prod * s.prod + i % s.prod = i := by
      rw [Nat.mul_comm]; exact Nat.div_add_mod i s.prod
    simp only [indices]
    rw [← hqr, getD_flatMap_range _ _ hblock [] n _ _ hq hr]
    have hrlen : i % s.prod < (indices s).length := by rw [length_indices]; exact hr
    have hrlen' : i % s.prod < ((indices s).map (i / s.prod :: ·)).length := by
      simpa using hrlen
    rw [List.getD_eq_getElem _ _ hrlen', List.getElem_map,
      ← List.getD_eq_getElem (indices s) [] hrlen]
    simp only [flatIndex]
    rw [ih _ hr]

/-- Enumerating all cells of a shape in row-major order recovers the flat
data of a well-formed tensor. -/
theorem map_getD_flatIndex_indices {s : List Nat} {data : List Int}
    (h : data.length = s.prod) :
    ((indices s).map fun ix => data.getD (flatIndex s ix) 0) = data := by
  apply List.ext_getElem
  · simp [length_indices, h]
  · intro i h1 h2
    have hi : i < s.prod := by simpa [length_indices] using h1
    have hlen : i < (indices s).length := by rw [length_indices]; exact hi
    rw [List.getElem_map, ← List.getD_eq_getElem (indices s) [] hlen,
      flatIndex_indices_getD i hi, List.getD_eq_getElem _ _ (by omega)]

/-- A tensor is well-formed when its flat data has exactly as many cells as
its shape declares. -/
def Tensor.wf (t : Tensor) : Prop := t.data.length = t.shape.prod

instance (t : Tensor) : Decidable t.wf := by unfold Tensor.wf; infer_instance

theorem padData_wf (t : Tensor) (target : List Nat) : (padData t target).wf := by
  simp [padData, Tensor.wf, length_indices]

/-- Padding a well-formed tensor to its own shape is the identity. -/
theorem padData_self {t : Tensor} (h : t.wf) : padData t t.shape = t := by
  obtain ⟨s, data⟩ := t
  simp only [padData, Tensor.mk.injEq, true_and]
  have : ∀ ix ∈ indices s,
      (if inB ix s then Tensor.get ⟨s, data⟩ ix else 0)
        = data.getD (flatIndex s ix) 0 := by
    intro ix hix
    simp [mem_indices_inB hix, Tensor.get]
  rw [List.map_congr_left this, map_getD_flatIndex_indices h]

/-! ## The fixed-size padding engine (`make_fixed_size`, prep.py lines 285-314) -/

/-- One dimension of a shape schema: the batch axis (`None`, prepended when
`batch_axis=True`), a literal size, or one of the four symbolic placeholders
of `shape_placeholders`. -/
inductive SDim where
  | batch : SDim
  | lit : Nat → SDim
  | numRes : SDim
  | numMsaSeq : SDim
  | numExtraSeq : SDim
  | numTemplates : SDim
deriving DecidableEq

/-- The slice of `model_runner.config` that `make_fixed_size` reads:
`max_msa_clusters`, `max_templates`, `max_extra_msa` and the per-feature
shape schema `cfg.data.eval.feat`. -/
structure EvalCfg where
  max_msa_clusters : Nat
  max_templates : Nat
  max_extra_msa : Nat
  feat : List (String × List SDim)
deriving DecidableEq

/-- `pad_size_map.get s2`: resolve a symbolic placeholder to its concrete pad
target (an arbitrary Python integer, hence `Int`: `NUM_MSA_SEQ` is the
difference `max_msa_clusters - max_templates`); `None`/literal dimensions are
not in the map. -/
def padSizeMapGet (cfg : EvalCfg) (length : Nat) : SDim → Option Int
  | .numRes => some length
  | .numMsaSeq => some ((cfg.max_msa_clusters : Int) - (cfg.max_templates : Int))
  | .numExtraSeq => some (cfg.max_extra_msa : Int)
  | .numTemplates => some (cfg.max_templates : Int)
  | _ => none

/-- `pad_size_map.get(s2, None) or s1`: a missing entry, and also a resolved
target of `0` (falsy in Python), fall back to the existing size `s1`. -/
def resolveDim (cfg : EvalCfg) (length : Nat) (s1 : Nat) (s2 : SDim) : Int :=
  match padSizeMapGet cfg length s2 with
  | some p => if p = 0 then (s1 : Int) else p
  | none => (s1 : Int)

/-- The failure modes of `make_fixed_size` (spec §7 names): the rank
`assert`, the `tf.pad` failure on a negative pad amount, and a feature key
absent from the schema dict (a Python `KeyError`). -/
inductive PadError where
  | rankMismatch : String → PadError
  | padTargetTooSmall : String → PadError
  | missingSchema : String → PadError
deriving DecidableEq

instance {ε α : Type} [DecidableEq ε] [DecidableEq α] : DecidableEq (Except ε α) :=
  fun x y =>
  match x, y with
  | .error a, .error b => decidable_of_iff (a = b) (by simp)
  | .ok a, .ok b => decidable_of_iff (a = b) (by simp)
  | .error _, .ok _ => .isFalse (by simp)
  | .ok _, .error _ => .isFalse (by simp)

/-- The feature key an error reports. -/
def PadError.key : PadError → String
  | .rankMismatch k => k
  | .padTargetTooSmall k => k
  | .missingSchema k => k

/-- `shape_schema[k]`: the declared schema of feature `k`, with a `None`
batch axis prepended when `batch_axis` is set. -/
def lookupSchema (cfg : EvalCfg) (batch_axis : Bool) (k : String) :
    Option (List SDim) :=
  (cfg.feat.lookup k).map fun v => if batch_axis then SDim.batch :: v else v

/-- Process one tensor of the feature map: check the rank `assert`, resolve
the per-dimension pad targets, and pad (`tf.pad` fails when some existing
size exceeds its target, i.e. a pad amount would be negative; an empty
`padding` list, i.e. a rank-0 tensor, is left untouched). -/
def padTensor (k : String) (t : Tensor) (schema : List SDim)
    (cfg : EvalCfg) (length : Nat) : Except PadError Tensor :=
  if t.shape.length ≠ schema.length then .error (.rankMismatch k)
  else
    let pad_size : List Int := List.zipWith (resolveDim cfg length) t.shape schema
    if pad_size.isEmpty then .ok t
    else if (t.shape.zip pad_size).all (fun p => (p.1 : Int) ≤ p.2) then
      .ok (padData t (pad_size.map Int.toNat))
    else .error (.padTargetTooSmall k)

/-- One iteration of the `for k, v in feat.items()` loop: the
`extra_cluster_assignment` bookkeeping tensor is passed through untouched;
every other tensor is looked up in the schema and padded. -/
def processEntry (cfg : EvalCfg) (length : Nat) (batch_axis : Bool)
    (e : String × Tensor) : Except PadError (String × Tensor) :=
  if e.1 = "extra_cluster_assignment" then .ok e
  else
    match lookupSchema cfg batch_axis e.1 with
    | none => .error (.missingSchema e.1)
    | some schema =>
      match padTensor e.1 e.2 schema cfg length with
      | .error err => .error err
      | .ok t => .ok (e.1, t)

/-- Sequential processing of the feature map, stopping at the first error
(the Python loop raises at the first offending tensor). -/
def mapEntries {α β : Type} (f : α → Except PadError β) : List α → Except PadError (List β)
  | [] => .ok []
  | e :: rest =>
    match f e with
    | .error err => .error err
    | .ok e' =>
      match mapEntries f rest with
      | .error err => .error err
      | .ok rest' => .ok (e' :: rest')

/-- `make_fixed_size(feat, model_runner, length, batch_axis)`: pad every
tensor of the feature map to the schema-resolved fixed shape. -/
def make_fixed_size (feat : List (String × Tensor)) (cfg : EvalCfg)
    (length : Nat) (batch_axis : Bool := true) :
    Except PadError (List (String × Tensor)) :=
  mapEntries (processEntry cfg length batch_axis) feat

theorem mapEntries_ok_length {α β : Type} {f : α → Except PadError β}
    {l : List α} {l' : List β} (h : mapEntries f l = .ok l') :
    l'.length = l.length := by
  induction l generalizing l' with
  | nil => simp [mapEntries] at h; simp [← h]
  | cons e rest ih =>
    simp only [mapEntries] at h
    cases hfe : f e with
    | error err => rw [hfe] at h; exact absurd h (by simp)
    | ok e' =>
      rw [hfe] at h
      cases hrest : mapEntries f rest with
      | error err => rw [hrest] at h; exact absurd h (by simp)
      | ok rest' =>
        rw [hrest] at h
        simp only [Except.ok.injEq] at h
        subst h
        simp [ih hrest]

/-- Pointwise description of a successful `mapEntries` run. -/
theorem mapEntries_ok_getElem {α β : Type} {f : α → Except PadError β}
    {l : List α} {l' : List β} (h : mapEntries f l = .ok l') :
    ∀ i (hi : i < l.length) (hi' : i < l'.length), f l[i] = .ok l'[i] := by
  induction l generalizing l' with
  | nil => intro i hi; simp at hi
  | cons e rest ih =>
    simp only [mapEntries] at h
    cases hfe : f e with
    | error err => rw [hfe] at h; exact absurd h (by simp)
    | ok e' =>
      rw [hfe] at h
      cases hrest : mapEntries f rest with
      | error err => rw [hrest] at h; exact absurd h (by simp)
      | ok rest' =>
        rw [hrest] at h
        simp only [Except.ok.injEq] at h
        subst h
        intro i hi hi'
        match i with
        | 0 => simpa using hfe
        | i + 1 =>
          simp only [List.getElem_cons_succ]
          exact ih hrest i (by simpa using hi) (by simpa using hi')

/-- A successful `mapEntries` run processed every element successfully. -/
theorem mapEntries_ok_of_mem {α β : Type} {f : α → Except PadError β}
    {l : List α} {l' : List β} (h : mapEntries f l = .ok l') :
    ∀ a ∈ l, ∃ b, f a = .ok b := by
  intro a ha
  obtain ⟨i, hi, rfl⟩ := List.mem_iff_getElem.mp ha
  have hlen := mapEntries_ok_length h
  have hi' : i < l'.length := by omega
  exact ⟨l'[i], mapEntries_ok_getElem h i hi hi'⟩

/-- An erroring `mapEntries` run pins the error on some element. -/
theorem mapEntries_error_of_mem {α β : Type} {f : α → Except PadError β}
    {l : List α} {err : PadError} (h : mapEntries f l = .error err) :
    ∃ a ∈ l, f a = .error err := by
  induction l with
  | nil => simp [mapEntries] at h
  | cons e rest ih =>
    simp only [mapEntries] at h
    cases hfe : f e with
    | error err' =>
      rw [hfe] at h
      simp only [Except.error.injEq] at h
      subst h
      exact ⟨e, by simp, hfe⟩
    | ok e' =>
      rw [hfe] at h
      cases hrest : mapEntries f rest with
      | error err' =>
        rw [hrest] at h
        simp only [Except.error.injEq] at h
        subst h
        obtain ⟨a, ha, hfa⟩ := ih hrest
        exact ⟨a, by simp [ha], hfa⟩
      | ok rest' => rw [hrest] at h; exact absurd h (by simp)

/-- If some element of the list must error, the whole run errors. -/
theorem mapEntries_isError {α β : Type} {f : α → Except PadError β}
    {l : List α} {a : α} (ha : a ∈ l) (hfa : ∀ b, f a ≠ .ok b) :
    ∀ l', mapEntries f l ≠ .ok l' := by
  intro l' h
  obtain ⟨b, hb⟩ := mapEntries_ok_of_mem h a ha
  exact hfa b hb

/-- Cell-level semantics of trailing zero-padding: inside the padded shape,
a cell holds the original value when its multi-index is inside the original
shape, and `0` otherwise. -/
theorem padData_get {t : Tensor} {target ix : List Nat}
    (hix : inB ix target = true) :
    (padData t target).get ix = if inB ix t.shape then t.get ix else 0 := by
  have hlt : flatIndex target ix < (indices target).length := by
    rw [length_indices]; exact flatIndex_lt hix
  have hlt' : flatIndex target ix
      < ((indices target).map fun ix => if inB ix t.shape then t.get ix else 0).length := by
    simpa using hlt
  have hdef : (padData t target).get ix
      = ((indices target).map fun ix => if inB ix t.shape then t.get ix else 0).getD
          (flatIndex target ix) 0 := rfl
  rw [hdef, List.getD_eq_getElem _ _ hlt', List.getElem_map,
    ← List.getD_eq_getElem (indices target) [] hlt, indices_getD_flatIndex hix]

theorem padTensor_ok_of_rank_ok {k : String} {t : Tensor} {schema : List SDim}
    {cfg : EvalCfg} {length : Nat} (hrank : t.shape.length = schema.length) :
    (∃ t', padTensor k t schema cfg length = .ok t')
      ∨ padTensor k t schema cfg length = .error (.padTargetTooSmall k) := by
  simp only [padTensor, hrank]
  by_cases h1 : (List.zipWith (resolveDim cfg length) t.shape schema).isEmpty
  · exact .inl ⟨t, by simp [h1]⟩
  · by_cases h2 : (t.shape.zip (List.zipWith (resolveDim cfg length) t.shape schema)).all
        (fun p => (p.1 : Int) ≤ p.2)
    · exact .inl ⟨padData t ((List.zipWith (resolveDim cfg length) t.shape schema).map
        Int.toNat), by simp [h1, h2]⟩
    · exact .inr (by simp [h1, h2])

/-- Shape and cell-level description of a successful `padTensor`. -/
theorem padTensor_ok_spec {k : String} {t t' : Tensor} {schema : List SDim}
    {cfg : EvalCfg} {length : Nat}
    (h : padTensor k t schema cfg length = .ok t') :
    t'.shape.length = t.shape.length
      ∧ (∀ j, t.shape.getD j 0 ≤ t'.shape.getD j 0)
      ∧ (∀ ix, inB ix t'.shape = true →
          t'.get ix = if inB ix t.shape then t.get ix else 0) := by
  simp only [padTensor] at h
  by_cases hrank : t.shape.length ≠ schema.length
  · simp [hrank] at h
  · push_neg at hrank
    simp only [hrank, ne_eq, Nat.lt_irrefl, if_neg, not_true_eq_false, if_false,
      reduceIte] at h
    set pad_size := List.zipWith (resolveDim cfg length) t.shape schema with hps
    by_cases h1 : pad_size.isEmpty
    · rw [if_pos h1] at h
      simp only [Except.ok.injEq] at h
      subst h
      refine ⟨rfl, fun j => le_refl _, fun ix hix => by simp [hix]⟩
    · rw [if_neg h1] at h
      by_cases h2 : (t.shape.zip pad_size).all (fun p => (p.1 : Int) ≤ p.2)
      · rw [if_pos h2] at h
        simp only [Except.ok.injEq] at h
        subst h
        have hlen : pad_size.length = t.shape.length := by
          simp [hps, hrank]
        have hshape : (padData t (pad_size.map Int.toNat)).shape
            = pad_size.map Int.toNat := rfl
        refine ⟨by simp [hshape, hlen], fun j => ?_, fun ix hix => padData_get hix⟩
        rcases Nat.lt_or_ge j t.shape.length with hj | hj
        · have hj' : j < pad_size.length := by omega
          have hmem : (t.shape[j], pad_size[j]) ∈ t.shape.zip pad_size := by
            rw [List.mem_iff_getElem]
            exact ⟨j, by simp [hlen]; omega, by simp⟩
          have hle := (List.all_eq_true.mp h2) _ hmem
          simp only [decide_eq_true_eq] at hle
          have hmap : j < (pad_size.map Int.toNat).length := by simpa using hj'
          have e1 : t.shape.getD j 0 = t.shape[j] := List.getD_eq_getElem _ _ hj
          have e2 : (pad_size.map Int.toNat).getD j 0 = (pad_size[j]).toNat := by
            rw [List.getD_eq_getElem _ _ hmap, List.getElem_map]
          rw [hshape, e1, e2]
          omega
        · rw [List.getD_eq_default _ _ hj]
          omega
      · rw [if_neg h2] at h
        exact absurd h (by simp)

/-- `tf.pad` refuses a negative pad amount: when some existing dimension
exceeds its resolved pad target, `padTensor` fails with
`PadTargetTooSmall`. -/
theorem padTensor_tooSmall {k : String} {t : Tensor} {schema : List SDim}
    {cfg : EvalCfg} {length : Nat}
    (hrank : t.shape.length = schema.length)
    (hbad : ∃ p ∈ t.shape.zip (List.zipWith (resolveDim cfg length) t.shape schema),
        ¬((p.1 : Int) ≤ p.2)) :
    padTensor k t schema cfg length = .error (.padTargetTooSmall k) := by
  obtain ⟨p, hp, hple⟩ := hbad
  have hne : ¬(t.shape.zip (List.zipWith (resolveDim cfg length) t.shape schema)).isEmpty := by
    intro hemp
    rw [List.isEmpty_iff] at hemp
    rw [hemp] at hp
    simp at hp
  have hzlen : (t.shape.zip (List.zipWith (resolveDim cfg length) t.shape schema)).length
      = t.shape.length := by
    simp [hrank]
  have hpsne : ¬(List.zipWith (resolveDim cfg length) t.shape schema).isEmpty := by
    intro hemp
    rw [List.isEmpty_iff] at hemp
    apply hne
    rw [List.isEmpty_iff, List.zip_eq_nil_iff]
    exact .inr hemp
  have hall : ¬(t.shape.zip (List.zipWith (resolveDim cfg length) t.shape schema)).all
      (fun p => (p.1 : Int) ≤ p.2) := by
    intro hall
    exact hple (by simpa using (List.all_eq_true.mp hall) _ hp)
  simp [padTensor, hrank, hpsne, hall]

theorem resolveDim_idem (cfg : EvalCfg) (length s1 : Nat) (s2 : SDim) :
    resolveDim cfg length (resolveDim cfg length s1 s2).toNat s2
      = resolveDim cfg length s1 s2 := by
  unfold resolveDim
  cases hget : padSizeMapGet cfg length s2 with
  | none => simp
  | some q =>
    by_cases hq : q = 0
    · simp [hq]
    · simp [hq]

theorem pad_size_idem (cfg : EvalCfg) (length : Nat) :
    ∀ (shape : List Nat) (schema : List SDim),
      List.zipWith (resolveDim cfg length)
          ((List.zipWith (resolveDim cfg length) shape schema).map Int.toNat) schema
        = List.zipWith (resolveDim cfg length) shape schema := by
  intro shape
  induction shape with
  | nil => intro schema; simp
  | cons s1 rest ih =>
    intro schema
    cases schema with
    | nil => simp
    | cons s2 srest =>
      simp only [List.zipWith_cons_cons, List.map_cons, resolveDim_idem]
      rw [ih]

theorem padTensor_idem {k : String} {t t' : Tensor} {schema : List SDim}
    {cfg : EvalCfg} {length : Nat}
    (h : padTensor k t schema cfg length = .ok t') :
    padTensor k t' schema cfg length = .ok t' := by
  simp only [padTensor] at h ⊢
  by_cases hrank : t.shape.length ≠ schema.length
  · simp [hrank] at h
  · push_neg at hrank
    simp only [hrank, ne_eq, not_true_eq_false, if_false, reduceIte] at h
    set pad_size := List.zipWith (resolveDim cfg length) t.shape schema with hps
    by_cases h1 : pad_size.isEmpty
    · rw [if_pos h1] at h
      simp only [Except.ok.injEq] at h
      subst h
      simp only [← hps, hrank, if_pos h1]
      simp
    · rw [if_neg h1] at h
      by_cases h2 : (t.shape.zip pad_size).all (fun p => (p.1 : Int) ≤ p.2)
      · rw [if_pos h2] at h
        simp only [Except.ok.injEq] at h
        have hlen : pad_size.length = t.shape.length := by simp [hps, hrank]
        have hnonneg : ∀ p ∈ pad_size, 0 ≤ p := by
          intro p hp
          obtain ⟨j, hj, rfl⟩ := List.mem_iff_getElem.mp hp
          have hj' : j < t.shape.length := by omega
          have hmem : (t.shape[j], pad_size[j]) ∈ t.shape.zip pad_size := by
            rw [List.mem_iff_getElem]
            exact ⟨j, by simp [hlen]; omega, by simp⟩
          have := (List.all_eq_true.mp h2) _ hmem
          simp only [decide_eq_true_eq] at this
          omega
        have hshape : t'.shape = pad_size.map Int.toNat := by rw [← h]; rfl
        have hrank' : t'.shape.length = schema.length := by
          simp [hshape, hlen, hrank]
        have hps' : List.zipWith (resolveDim cfg length) t'.shape schema = pad_size := by
          rw [hshape, hps, pad_size_idem]
        simp only [hrank', ne_eq, not_true_eq_false, if_false, reduceIte, hps']
        rw [if_neg h1]
        have hall' : (t'.shape.zip pad_size).all (fun p => (p.1 : Int) ≤ p.2) = true := by
          rw [List.all_eq_true]
          intro p hp
          obtain ⟨j, hj, rfl⟩ := List.mem_iff_getElem.mp hp
          have hjp : j < pad_size.length := by
            rw [List.length_zip, hshape] at hj
            simp at hj
            omega
          have hjs : j < t'.shape.length := by rw [List.length_zip] at hj; omega
          have : (t'.shape.zip pad_size)[j] = (t'.shape[j], pad_size[j]) := by
            simp
          rw [this]
          simp only [decide_eq_true_eq]
          have : t'.shape[j] = (pad_size[j]).toNat := by
            have hjm : j < (pad_size.map Int.toNat).length := by simpa using hjp
            simp only [hshape]
            simp
          rw [this]
          have := hnonneg pad_size[j] (by exact List.getElem_mem hjp)
          omega
        rw [if_pos hall']
        have hwf : t'.wf := by rw [← h]; exact padData_wf _ _
        rw [← hshape, padData_self hwf]
      · rw [if_neg h2] at h
        exact absurd h (by simp)

theorem processEntry_idem {cfg : EvalCfg} {length : Nat} {batch_axis : Bool}
    {e e' : String × Tensor}
    (h : processEntry cfg length batch_axis e = .ok e') :
    processEntry cfg length batch_axis e' = .ok e' := by
  simp only [processEntry] at h ⊢
  by_cases hex : e.1 = "extra_cluster_assignment"
  · rw [if_pos hex] at h
    simp only [Except.ok.injEq] at h
    subst h
    rw [if_pos hex]
  · rw [if_neg hex] at h
    cases hsch : lookupSchema cfg batch_axis e.1 with
    | none => rw [hsch] at h; exact absurd h (by simp)
    | some schema =>
      rw [hsch] at h
      simp only at h
      cases hpt : padTensor e.1 e.2 schema cfg length with
      | error err => rw [hpt] at h; exact absurd h (by simp)
      | ok t' =>
        rw [hpt] at h
        simp only [Except.ok.injEq] at h
        subst h
        rw [if_neg hex, hsch]
        simp only
        rw [padTensor_idem hpt]

theorem mapEntries_idem {α : Type} {f : α → Except PadError α}
    (hf : ∀ a b, f a = .ok b → f b = .ok b) :
    ∀ {l l' : List α}, mapEntries f l = .ok l' → mapEntries f l' = .ok l' := by
  intro l
  induction l with
  | nil =>
    intro l' h
    simp only [mapEntries, Except.ok.injEq] at h
    subst h
    rfl
  | cons e rest ih =>
    intro l' h
    simp only [mapEntries] at h
    cases hfe : f e with
    | error err => rw [hfe] at h; exact absurd h (by simp)
    | ok e' =>
      rw [hfe] at h
      cases hrest : mapEntries f rest with
      | error err => rw [hrest] at h; exact absurd h (by simp)
      | ok rest' =>
        rw [hrest] at h
        simp only [Except.ok.injEq] at h
        subst h
        simp only [mapEntries, hf e e' hfe, ih hrest]

/-- Key preservation, shape growth and cell-level semantics of one
successfully processed feature-map entry. -/
theorem processEntry_ok_spec {cfg : EvalCfg} {length : Nat} {batch_axis : Bool}
    {e e' : String × Tensor}
    (h : processEntry cfg length batch_axis e = .ok e') :
    e'.1 = e.1
    ∧ e'.2.shape.length = e.2.shape.length
    ∧ (∀ j, e.2.shape.getD j 0 ≤ e'.2.shape.getD j 0)
    ∧ (∀ ix, inB ix e'.2.shape = true →
        e'.2.get ix = if inB ix e.2.shape then e.2.get ix else 0) := by
  simp only [processEntry] at h
  by_cases hex : e.1 = "extra_cluster_assignment"
  · rw [if_pos hex] at h
    simp only [Except.ok.injEq] at h
    subst h
    exact ⟨rfl, rfl, fun j => le_refl _, fun ix hix => by simp [hix]⟩
  · rw [if_neg hex] at h
    cases hsch : lookupSchema cfg batch_axis e.1 with
    | none => rw [hsch] at h; exact absurd h (by simp)
    | some schema =>
      rw [hsch] at h
      simp only at h
      cases hpt : padTensor e.1 e.2 schema cfg length with
      | error err => rw [hpt] at h; exact absurd h (by simp)
      | ok t' =>
        rw [hpt] at h
        simp only [Except.ok.injEq] at h
        subst h
        obtain ⟨h1, h2, h3⟩ := padTensor_ok_spec hpt
        exact ⟨rfl, h1, h2, h3⟩

/-- Characterization of one erroring feature-map entry: the entry is not the
pass-through key, the error names the entry's key, and it is a missing-schema
error or an error of `padTensor`. -/
theorem processEntry_error {cfg : EvalCfg} {length : Nat} {batch_axis : Bool}
    {e : String × Tensor} {err : PadError}
    (h : processEntry cfg length batch_axis e = .error err) :
    e.1 ≠ "extra_cluster_assignment" ∧ err.key = e.1
    ∧ ((lookupSchema cfg batch_axis e.1 = none ∧ err = .missingSchema e.1)
      ∨ (∃ schema, lookupSchema cfg batch_axis e.1 = some schema
          ∧ padTensor e.1 e.2 schema cfg length = .error err)) := by
  simp only [processEntry] at h
  by_cases hex : e.1 = "extra_cluster_assignment"
  · rw [if_pos hex] at h; exact absurd h (by simp)
  · rw [if_neg hex] at h
    refine ⟨hex, ?_, ?_⟩
    all_goals
      cases hsch : lookupSchema cfg batch_axis e.1 with
      | none =>
        rw [hsch] at h
        simp only [Except.error.injEq] at h
        first
        | (subst h; rfl)
        | exact .inl ⟨rfl, h.symm⟩
      | some schema =>
        rw [hsch] at h
        simp only at h
        cases hpt : padTensor e.1 e.2 schema cfg length with
        | error err' =>
          rw [hpt] at h
          simp only [Except.error.injEq] at h
          subst h
          first
          | exact .inr ⟨schema, rfl, hpt⟩
          | (simp only [padTensor] at hpt
             by_cases hr : e.2.shape.length ≠ schema.length
             · rw [if_pos hr] at hpt
               simp only [Except.error.injEq] at hpt
               rw [← hpt]
               rfl
             · rw [if_neg hr] at hpt
               by_cases h1 : (List.zipWith (resolveDim cfg length) e.2.shape schema).isEmpty
               · rw [if_pos h1] at hpt; exact absurd hpt (by simp)
               · rw [if_neg h1] at hpt
                 by_cases h2 : (e.2.shape.zip
                     (List.zipWith (resolveDim cfg length) e.2.shape schema)).all
                     (fun p => (p.1 : Int) ≤ p.2)
                 · rw [if_pos h2] at hpt; exact absurd hpt (by simp)
                 · rw [if_neg h2] at hpt
                   simp only [Except.error.injEq] at hpt
                   rw [← hpt]
                   rfl)
        | ok t' => rw [hpt] at h; exact absurd h (by simp)

/-- A rank mismatch on a schema-covered entry makes `processEntry` fail with
`RankMismatch` (the Python `assert`). -/
theorem processEntry_rankMismatch {cfg : EvalCfg} {length : Nat} {batch_axis : Bool}
    {e : String × Tensor} {schema : List SDim}
    (hex : e.1 ≠ "extra_cluster_assignment")
    (hsch : lookupSchema cfg batch_axis e.1 = some schema)
    (hr : e.2.shape.length ≠ schema.length) :
    processEntry cfg length batch_axis e = .error (.rankMismatch e.1) := by
  simp [processEntry, hex, hsch, padTensor, hr]

/-- C3: for every tensor in the feature map, `make_fixed_size` pads each
dimension on the trailing side only with zero-fill and never truncates — on
success every output tensor keeps its key, its rank, has every dimension at
least as large as the input's, and each cell holds the original value inside
the original bounds and `0` in the newly added trailing region; and whenever
some (schema-covered, rank-correct) tensor's existing size exceeds its
resolved pad target, that tensor's pad step fails with `PadTargetTooSmall`
and the whole call cannot succeed (data is never silently dropped). -/
theorem make_fixed_size_never_truncates :
    (∀ (feat : List (String × Tensor)) (cfg : EvalCfg) (length : Nat)
        (batch_axis : Bool) (out : List (String × Tensor)),
      make_fixed_size feat cfg length batch_axis = .ok out →
        out.length = feat.length
        ∧ ∀ i (hi : i < feat.length) (hi' : i < out.length),
            (out[i]).1 = (feat[i]).1
            ∧ (out[i]).2.shape.length = (feat[i]).2.shape.length
            ∧ (∀ j, (feat[i]).2.shape.getD j 0 ≤ (out[i]).2.shape.getD j 0)
            ∧ (∀ ix, inB ix (out[i]).2.shape = true →
                (out[i]).2.get ix
                  = if inB ix (feat[i]).2.shape then (feat[i]).2.get ix else 0))
    ∧ (∀ (feat : List (String × Tensor)) (cfg : EvalCfg) (length : Nat)
        (batch_axis : Bool) (k : String) (v : Tensor) (schema : List SDim),
      (k, v) ∈ feat → k ≠ "extra_cluster_assignment" →
      lookupSchema cfg batch_axis k = some schema →
      v.shape.length = schema.length →
      (∃ p ∈ v.shape.zip (List.zipWith (resolveDim cfg length) v.shape schema),
          ¬((p.1 : Int) ≤ p.2)) →
      padTensor k v schema cfg length = .error (.padTargetTooSmall k)
        ∧ ∀ out, make_fixed_size feat cfg length batch_axis ≠ .ok out) := by
  constructor
  · intro feat cfg length batch_axis out h
    refine ⟨mapEntries_ok_length h, fun i hi hi' => ?_⟩
    exact processEntry_ok_spec (mapEntries_ok_getElem h i hi hi')
  · intro feat cfg length batch_axis k v schema hmem hex hsch hrank hbad
    have hpt := @padTensor_tooSmall k v schema cfg length hrank hbad
    refine ⟨hpt, mapEntries_isError hmem ?_⟩
    intro b hb
    simp only [processEntry, hex, if_neg, if_false, reduceIte, hsch] at hb
    simp only [hpt] at hb
    exact absurd hb (by simp)

/-- Witness for `make_fixed_size_never_truncates` at a concrete input: a
rank-1 tensor of size 2 padded to `NUM_RES = 4`, and a rank-1 tensor of size
5 whose pad target 3 is too small. -/
theorem make_fixed_size_never_truncates_witness :
    (make_fixed_size [("a", ⟨[2], [3, 4]⟩)] ⟨0, 0, 0, [("a", [SDim.numRes])]⟩ 4 false
        = .ok [("a", ⟨[4], [3, 4, 0, 0]⟩)]
      ∧ ([("a", (⟨[4], [3, 4, 0, 0]⟩ : Tensor))].length
          = [("a", (⟨[2], [3, 4]⟩ : Tensor))].length))
    ∧ padTensor "a" ⟨[5], [1, 2, 3, 4, 5]⟩ [SDim.numRes]
          ⟨0, 0, 0, [("a", [SDim.numRes])]⟩ 3
        = .error (.padTargetTooSmall "a") := by
  refine ⟨⟨by decide, ?_⟩, ?_⟩
  · exact (make_fixed_size_never_truncates.1 [("a", ⟨[2], [3, 4]⟩)]
      ⟨0, 0, 0, [("a", [SDim.numRes])]⟩ 4 false [("a", ⟨[4], [3, 4, 0, 0]⟩)]
      (by decide)).1
  · exact (make_fixed_size_never_truncates.2 [("a", ⟨[5], [1, 2, 3, 4, 5]⟩)]
      ⟨0, 0, 0, [("a", [SDim.numRes])]⟩ 3 false "a" ⟨[5], [1, 2, 3, 4, 5]⟩
      [SDim.numRes] (by decide) (by decide) (by decide) (by decide)
      (by decide)).1

/-- C7: padding is idempotent — applying `make_fixed_size` to its own
(successful) output with the same schema and target length returns that
output unchanged, on every tensor's values and shape.  In particular it is a
no-op on an already-correctly-shaped map. -/
theorem make_fixed_size_idem (feat : List (String × Tensor)) (cfg : EvalCfg)
    (length : Nat) (batch_axis : Bool) (out : List (String × Tensor))
    (h : make_fixed_size feat cfg length batch_axis = .ok out) :
    make_fixed_size out cfg length batch_axis = .ok out :=
  mapEntries_idem (fun _ _ he => processEntry_idem he) h

/-- Witness for `make_fixed_size_idem` at a concrete input. -/
theorem make_fixed_size_idem_witness :
    make_fixed_size [("a", ⟨[2], [3, 4]⟩)] ⟨0, 0, 0, [("a", [SDim.numRes])]⟩ 4 false
        = .ok [("a", ⟨[4], [3, 4, 0, 0]⟩)]
      ∧ make_fixed_size [("a", ⟨[4], [3, 4, 0, 0]⟩)]
          ⟨0, 0, 0, [("a", [SDim.numRes])]⟩ 4 false
        = .ok [("a", ⟨[4], [3, 4, 0, 0]⟩)] :=
  ⟨by decide, make_fixed_size_idem [("a", ⟨[2], [3, 4]⟩)]
    ⟨0, 0, 0, [("a", [SDim.numRes])]⟩ 4 false [("a", ⟨[4], [3, 4, 0, 0]⟩)] (by decide)⟩

/-- C9: the accelerator-only bookkeeping tensor `extra_cluster_assignment`
is excluded from schema lookup, rank checking and padding: on success it
appears in the output with its value unchanged, and no error ever names
it. -/
theorem extra_cluster_assignment_passthrough :
    (∀ (feat : List (String × Tensor)) (cfg : EvalCfg) (length : Nat)
        (batch_axis : Bool) (out : List (String × Tensor)),
      make_fixed_size feat cfg length batch_axis = .ok out →
        ∀ i (hi : i < feat.length) (hi' : i < out.length),
          (feat[i]).1 = "extra_cluster_assignment" → out[i] = feat[i])
    ∧ (∀ (feat : List (String × Tensor)) (cfg : EvalCfg) (length : Nat)
        (batch_axis : Bool) (err : PadError),
      make_fixed_size feat cfg length batch_axis = .error err →
        err.key ≠ "extra_cluster_assignment") := by
  constructor
  · intro feat cfg length batch_axis out h i hi hi' hkey
    have he := mapEntries_ok_getElem h i hi hi'
    simp only [processEntry, hkey, if_pos, reduceIte, Except.ok.injEq] at he
    exact he.symm
  · intro feat cfg length batch_axis err h
    obtain ⟨e, _, he⟩ := mapEntries_error_of_mem h
    obtain ⟨hex, hkey, _⟩ := processEntry_error he
    rw [hkey]
    exact hex

/-- Witness for `extra_cluster_assignment_passthrough`: the bookkeeping
tensor has no schema entry and a shape matching no declared rank, yet it is
passed through untouched while its neighbour is padded. -/
theorem extra_cluster_assignment_passthrough_witness :
    make_fixed_size
        [("extra_cluster_assignment", ⟨[3], [9, 9, 9]⟩), ("a", ⟨[2], [3, 4]⟩)]
        ⟨0, 0, 0, [("a", [SDim.numRes])]⟩ 4 false
      = .ok [("extra_cluster_assignment", ⟨[3], [9, 9, 9]⟩), ("a", ⟨[4], [3, 4, 0, 0]⟩)]
    ∧ [("extra_cluster_assignment", (⟨[3], [9, 9, 9]⟩ : Tensor)),
        ("a", ⟨[4], [3, 4, 0, 0]⟩)][0]
      = [("extra_cluster_assignment", (⟨[3], [9, 9, 9]⟩ : Tensor)),
        ("a", ⟨[2], [3, 4]⟩)][0] :=
  ⟨by decide, extra_cluster_assignment_passthrough.1
    [("extra_cluster_assignment", ⟨[3], [9, 9, 9]⟩), ("a", ⟨[2], [3, 4]⟩)]
    ⟨0, 0, 0, [("a", [SDim.numRes])]⟩ 4 false
    [("extra_cluster_assignment", ⟨[3], [9, 9, 9]⟩), ("a", ⟨[4], [3, 4, 0, 0]⟩)]
    (by decide) 0 (by decide) (by decide) (by decide)⟩

/-- C10: a symbolic placeholder whose resolved pad target is `0` (for
example `NUM_MSA_SEQ` when `max_msa_clusters = max_templates`) falls back to
the tensor's existing size — exactly the behaviour of a literal
(non-symbolic) schema dimension — so the dimension is neither padded nor
shrunk to 0. -/
theorem zero_pad_target_falls_back :
    (∀ (cfg : EvalCfg) (length s1 n : Nat),
        resolveDim cfg length s1 (.lit n) = (s1 : Int))
    ∧ (∀ (cfg : EvalCfg) (length s1 : Nat) (d : SDim),
        padSizeMapGet cfg length d = some 0 → resolveDim cfg length s1 d = (s1 : Int))
    ∧ (∀ (cfg : EvalCfg) (length s1 : Nat),
        cfg.max_msa_clusters = cfg.max_templates →
          resolveDim cfg length s1 .numMsaSeq = (s1 : Int))
    ∧ (∀ (cfg : EvalCfg) (length r n : Nat) (k : String) (data : List Int),
        cfg.max_msa_clusters = cfg.max_templates → 0 < length → n ≤ length →
          padTensor k ⟨[r, n], data⟩ [.numMsaSeq, .numRes] cfg length
            = .ok (padData ⟨[r, n], data⟩ [r, length])) := by
  refine ⟨fun cfg length s1 n => rfl, fun cfg length s1 d h => by
    simp [resolveDim, h], fun cfg length s1 h => by
    simp [resolveDim, padSizeMapGet, h], ?_⟩
  intro cfg length r n k data heq hlen hn
  have h1 : resolveDim cfg length r .numMsaSeq = (r : Int) := by
    simp [resolveDim, padSizeMapGet, heq]
  have h2 : resolveDim cfg length n .numRes = (length : Int) := by
    simp only [resolveDim, padSizeMapGet]
    rw [if_neg (by omega)]
  simp only [padTensor, List.zipWith_cons_cons, List.zipWith_nil_right,
    List.zipWith_nil_left, h1, h2]
  rw [if_neg (by simp), if_neg (by simp), if_pos (by simp; omega)]
  have : ([(r : Int), (length : Int)].map Int.toNat) = [r, length] := by simp
  rw [this]

/-- Witness for `zero_pad_target_falls_back`: with
`max_msa_clusters = max_templates = 2`, a `[3, 2]` tensor keeps its first
(`NUM_MSA_SEQ`) dimension at 3 and pads only `NUM_RES` to 4. -/
theorem zero_pad_target_falls_back_witness :
    resolveDim ⟨2, 2, 5, []⟩ 4 3 .numMsaSeq = (3 : Int)
    ∧ padTensor "m" ⟨[3, 2], [1, 2, 3, 4, 5, 6]⟩ [.numMsaSeq, .numRes] ⟨2, 2, 5, []⟩ 4
        = .ok (padData ⟨[3, 2], [1, 2, 3, 4, 5, 6]⟩ [3, 4]) :=
  ⟨zero_pad_target_falls_back.2.2.1 ⟨2, 2, 5, []⟩ 4 3 rfl,
    zero_pad_target_falls_back.2.2.2 ⟨2, 2, 5, []⟩ 4 3 2 "m" [1, 2, 3, 4, 5, 6]
      rfl (by decide) (by decide)⟩

/-- C4 counterexample: the claim's converse clause — "no error is raised
when every tensor's rank matches its schema" — is false.  In this concrete
feature map the single tensor's rank (1) matches its schema `[NUM_RES]`, yet
`make_fixed_size` with pad target 3 < 5 raises `PadTargetTooSmall`. -/
theorem make_fixed_size_rank_check_counterexample :
    lookupSchema ⟨0, 0, 0, [("a", [SDim.numRes])]⟩ false "a" = some [SDim.numRes]
    ∧ (⟨[5], [1, 2, 3, 4, 5]⟩ : Tensor).shape.length = [SDim.numRes].length
    ∧ make_fixed_size [("a", ⟨[5], [1, 2, 3, 4, 5]⟩)]
        ⟨0, 0, 0, [("a", [SDim.numRes])]⟩ 3 false
      = .error (.padTargetTooSmall "a") := by
  decide

/-- C4 (amended): when every (schema-covered, non-pass-through) tensor's
rank matches its schema, `make_fixed_size` never raises `RankMismatch`
(though it may still fail, e.g. with `PadTargetTooSmall`); whenever some
tensor's rank differs from its schema's declared rank the call never
succeeds (no silent reshape); and the error is `RankMismatch` itself
whenever every entry preceding the mismatched tensor processes
successfully. -/
theorem make_fixed_size_rank_check :
    (∀ (feat : List (String × Tensor)) (cfg : EvalCfg) (length : Nat)
        (batch_axis : Bool),
      (∀ e ∈ feat, e.1 ≠ "extra_cluster_assignment" →
        ∃ sch, lookupSchema cfg batch_axis e.1 = some sch
          ∧ e.2.shape.length = sch.length) →
      ∀ k, make_fixed_size feat cfg length batch_axis ≠ .error (.rankMismatch k))
    ∧ (∀ (feat : List (String × Tensor)) (cfg : EvalCfg) (length : Nat)
        (batch_axis : Bool) (e : String × Tensor) (sch : List SDim),
      e ∈ feat → e.1 ≠ "extra_cluster_assignment" →
      lookupSchema cfg batch_axis e.1 = some sch →
      e.2.shape.length ≠ sch.length →
      ∀ out, make_fixed_size feat cfg length batch_axis ≠ .ok out)
    ∧ (∀ (pre post : List (String × Tensor)) (cfg : EvalCfg) (length : Nat)
        (batch_axis : Bool) (e : String × Tensor) (sch : List SDim),
      (∀ e' ∈ pre, ∃ b, processEntry cfg length batch_axis e' = .ok b) →
      e.1 ≠ "extra_cluster_assignment" →
      lookupSchema cfg batch_axis e.1 = some sch →
      e.2.shape.length ≠ sch.length →
      make_fixed_size (pre ++ e :: post) cfg length batch_axis
        = .error (.rankMismatch e.1)) := by
  refine ⟨?_, ?_, ?_⟩
  · intro feat cfg length batch_axis hok k h
    obtain ⟨e, hmem, he⟩ := mapEntries_error_of_mem h
    obtain ⟨hex, _, hcases⟩ := processEntry_error he
    rcases hcases with ⟨_, habs⟩ | ⟨schema, hsch, hpt⟩
    · exact PadError.noConfusion habs
    · obtain ⟨sch', hsch', hrank⟩ := hok e hmem hex
      rw [hsch] at hsch'
      obtain rfl : schema = sch' := by injection hsch'
      rcases @padTensor_ok_of_rank_ok e.1 e.2 _ cfg length hrank
        with ⟨t', hok'⟩ | hsmall
      · rw [hok'] at hpt; exact Except.noConfusion hpt
      · rw [hsmall] at hpt
        injection hpt with h'
        exact PadError.noConfusion h'
  · intro feat cfg length batch_axis e sch hmem hex hsch hrank out
    apply mapEntries_isError hmem
    intro b hb
    rw [processEntry_rankMismatch hex hsch hrank] at hb
    exact Except.noConfusion hb
  · intro pre
    induction pre with
    | nil =>
      intro post cfg length batch_axis e sch _ hex hsch hrank
      simp only [List.nil_append, make_fixed_size, mapEntries,
        processEntry_rankMismatch hex hsch hrank]
    | cons p pre' ih =>
      intro post cfg length batch_axis e sch hpre hex hsch hrank
      obtain ⟨b, hpb⟩ := hpre p (by simp)
      have hrest := ih post cfg length batch_axis e sch
        (fun e' he' => hpre e' (by simp [he'])) hex hsch hrank
      simp only [List.cons_append, make_fixed_size, mapEntries, hpb]
      simp only [make_fixed_size] at hrest
      simp only [List.append_eq, hrest]

/-- Witness for `make_fixed_size_rank_check` at concrete inputs: a
rank-correct map never yields `RankMismatch`; a map holding the rank-2
tensor "b" against schema `[NUM_RES]` cannot succeed; and with the
well-formed "a" first, the error is precisely `RankMismatch` for "b". -/
theorem make_fixed_size_rank_check_witness :
    (∀ k, make_fixed_size [("a", ⟨[2], [3, 4]⟩)]
        ⟨0, 0, 0, [("a", [SDim.numRes])]⟩ 4 false ≠ .error (.rankMismatch k))
    ∧ (∀ out, make_fixed_size
        [("a", ⟨[2], [3, 4]⟩), ("b", ⟨[2, 2], [7, 7, 7, 7]⟩)]
        ⟨0, 0, 0, [("a", [SDim.numRes]), ("b", [SDim.numRes])]⟩ 4 false
        ≠ .ok out)
    ∧ make_fixed_size ([("a", ⟨[2], [3, 4]⟩)] ++ ("b", ⟨[2, 2], [7, 7, 7, 7]⟩) :: [])
        ⟨0, 0, 0, [("a", [SDim.numRes]), ("b", [SDim.numRes])]⟩ 4 false
      = .error (.rankMismatch "b") := by
  refine ⟨make_fixed_size_rank_check.1 _ _ _ _ ?_,
    make_fixed_size_rank_check.2.1 _ _ _ _ ("b", ⟨[2, 2], [7, 7, 7, 7]⟩)
      [SDim.numRes] (by decide) (by decide) (by decide) (by decide),
    make_fixed_size_rank_check.2.2 _ _ _ _ _ ("b", ⟨[2, 2], [7, 7, 7, 7]⟩)
      [SDim.numRes] ?_ (by decide) (by decide) (by decide)⟩
  · intro e he hex
    have : e = ("a", (⟨[2], [3, 4]⟩ : Tensor)) := by simpa using he
    subst this
    exact ⟨[SDim.numRes], by decide, by decide⟩
  · intro e' he'
    have : e' = ("a", (⟨[2], [3, 4]⟩ : Tensor)) := by simpa using he'
    subst this
    exact ⟨("a", ⟨[4], [3, 4, 0, 0]⟩), by decide⟩

/-! ## Copy-replicated residue indices (`repeat_idx`, prep.py lines 222-224)
and the hallucination residue index (lines 172-178) -/

/-- `np.cumsum` of a list of integers. -/
def cumsum (l : List Int) : List Int := (l.scanl (· + ·) 0).drop 1

/-- `np.arange(n)` as integers. -/
def intRange (n : Nat) : List Int := (List.range n).map Int.ofNat

/-- `repeat_idx(idx, copies, offset)`:
`np.tile(idx, copies) + np.repeat(np.cumsum([0] + [idx[-1]+offset]*(copies-1)), len(idx))`. -/
def repeat_idx (idx : List Int) (copies : Nat := 1) (offset : Int := 50) : List Int :=
  let idx_offset :=
    (cumsum (0 :: List.replicate (copies - 1) (idx.getLastD 0 + offset))).flatMap
      (List.replicate idx.length)
  List.zipWith (· + ·) ((List.range copies).flatMap fun _ => idx) idx_offset

/-- The per-copy chain-break offset chosen by `_prep_hallucination`
(prep.py lines 172-176): 1 in repeat mode, 50 otherwise. -/
def hallucOffset (rep : Bool) : Int := if rep then 1 else 50

/-- The residue index `_prep_hallucination` installs when `copies > 1`
(prep.py line 178): `repeat_idx(np.arange(length), copies, offset)`. -/
def hallucResidueIndex (length copies : Nat) (rep : Bool) : List Int :=
  repeat_idx (intRange length) copies (hallucOffset rep)

/-- C5: hallucination assembly with `length=10, copies=3, repeat=false`
produces 3 blocks of 10 consecutive indices, a gap of exactly 50 between the
last index of a block and the first index of the next, total length 30; in
repeat mode the per-copy offset is 1 instead of 50 (making the copies
contiguous: the index is exactly `0..29`). -/
theorem halluc_residue_index_10_3 :
    (hallucResidueIndex 10 3 false).length = 30
    ∧ (∀ c < 3, ∀ j < 9,
        (hallucResidueIndex 10 3 false).getD (10 * c + j + 1) 0
          = (hallucResidueIndex 10 3 false).getD (10 * c + j) 0 + 1)
    ∧ (∀ c < 2,
        (hallucResidueIndex 10 3 false).getD (10 * (c + 1)) 0
          = (hallucResidueIndex 10 3 false).getD (10 * c + 9) 0 + 50)
    ∧ hallucOffset true = 1
    ∧ hallucResidueIndex 10 3 true = intRange 30 := by
  decide

/-! ## Residue-index chaining across chains (`prep_pdb`, prep.py lines 241-256)

Per chain, `prep_pdb` computes `residue_index = native_index[has_ca] + last`
and then `last = residue_index[-1] + 50`.  `chains` below is the list of
per-chain native residue-index arrays (already filtered by `has_ca`);
native PDB residue numbers are arbitrary integers. -/

/-- The loop over chains, carrying the running offset `last` (initially 0). -/
def shiftChains : Int → List (List Int) → List (List Int)
  | _, [] => []
  | last, c :: rest =>
    let shifted := c.map (· + last)
    shifted :: shiftChains (shifted.getLastD 0 + 50) rest

/-- The concatenated-but-still-chain-separated residue index `prep_pdb`
builds (`o[i]["residue_index"]` before the final `np.concatenate`). -/
def prep_pdb_residue_index (chains : List (List Int)) : List (List Int) :=
  shiftChains 0 chains

theorem shiftChains_length (last : Int) (chains : List (List Int)) :
    (shiftChains last chains).length = chains.length := by
  induction chains generalizing last with
  | nil => rfl
  | cons c rest ih => simp [shiftChains, ih]

/-- In a `≤`-sorted nonempty list every element is at most the last one. -/
theorem le_getLastD_of_sorted {c : List Int} (hc : c.Chain' (· ≤ ·)) :
    ∀ x ∈ c, x ≤ c.getLastD 0 := by
  induction c with
  | nil => intro x hx; simp at hx
  | cons a rest ih =>
    intro x hx
    cases rest with
    | nil =>
      simp at hx
      simp [hx]
    | cons b rest' =>
      rw [List.chain'_cons] at hc
      rcases List.mem_cons.mp hx with rfl | hx'
      · calc x ≤ b := hc.1
          _ ≤ (b :: rest').getLastD 0 := ih hc.2 b (by simp)
      · exact ih hc.2 x hx'

theorem getLastD_map_add {c : List Int} (hne : c ≠ []) (last : Int) :
    (c.map (· + last)).getLastD 0 = c.getLastD 0 + last := by
  induction c with
  | nil => exact absurd rfl hne
  | cons a rest ih =>
    cases rest with
    | nil => simp
    | cons b rest' =>
      simp only [List.map_cons, List.getLastD_cons]
      simp


/-- C2 counterexample: the unconditional ≥ 50 gap fails when a later
chain's native numbering starts below 0 (legal in PDB files).  With chains
`[[0], [-10]]` the shifted indices are `[[0], [40]]`: the gap between the
two chains is 40 < 50. -/
theorem prep_pdb_gap_counterexample :
    prep_pdb_residue_index [[0], [-10]] = [[0], [40]]
    ∧ ¬((40 : Int) - 0 ≥ 50) := by
  constructor
  · rfl
  · decide

/-- C2 (amended): the first chain's native residue indices are used
verbatim and each subsequent chain's indices are the native ones shifted by
(previous chain's last shifted index + 50); consequently — provided every
chain is nonempty with monotonically non-decreasing native indices and
every native index is ≥ 0 — any element of chain `i+1` exceeds any element
of chain `i` by at least 50 in the assembled index. -/
theorem prep_pdb_residue_index_spec (chains : List (List Int))
    (hne : ∀ c ∈ chains, c ≠ [])
    (hmono : ∀ c ∈ chains, c.Chain' (· ≤ ·))
    (hnn : ∀ c ∈ chains, ∀ x ∈ c, 0 ≤ x) :
    (prep_pdb_residue_index chains).head? = chains.head?
    ∧ (∀ i c_next o_i,
        chains.get? (i + 1) = some c_next →
        (prep_pdb_residue_index chains).get? i = some o_i →
        (prep_pdb_residue_index chains).get? (i + 1)
          = some (c_next.map (· + (o_i.getLastD 0 + 50))))
    ∧ List.Chain' (fun a b => ∀ x ∈ a, ∀ y ∈ b, x + 50 ≤ y)
        (prep_pdb_residue_index chains) := by
  refine ⟨?_, ?_, ?_⟩
  · cases chains with
    | nil => rfl
    | cons c rest =>
      simp [prep_pdb_residue_index, shiftChains]
  · have key : ∀ (last : Int) (cs : List (List Int)) (i : Nat) c_next o_i,
        cs.get? (i + 1) = some c_next →
        (shiftChains last cs).get? i = some o_i →
        (shiftChains last cs).get? (i + 1)
          = some (c_next.map (· + (o_i.getLastD 0 + 50))) := by
      intro last cs
      induction cs generalizing last with
      | nil => intro i c_next o_i h; simp at h
      | cons c rest ih =>
        intro i c_next o_i hnext hcur
        match i with
        | 0 =>
          simp only [List.get?_cons_succ, List.get?_cons_zero] at hnext hcur ⊢
          simp only [shiftChains] at hcur ⊢
          simp only [List.get?_cons_zero, Option.some.injEq] at hcur
          subst hcur
          cases rest with
          | nil => simp at hnext
          | cons d rest' =>
            simp only [List.get?_cons_zero, Option.some.injEq] at hnext
            subst hnext
            simp [shiftChains]
        | i + 1 =>
          simp only [List.get?_cons_succ] at hnext hcur ⊢
          simp only [shiftChains, List.get?_cons_succ] at hcur ⊢
          exact ih _ i c_next o_i hnext hcur
    exact fun i c_next o_i => key 0 chains i c_next o_i
  · have key : ∀ (last : Int) (cs : List (List Int)),
        (∀ c ∈ cs, c ≠ []) → (∀ c ∈ cs, c.Chain' (· ≤ ·)) →
        (∀ c ∈ cs, ∀ x ∈ c, 0 ≤ x) →
        List.Chain' (fun a b => ∀ x ∈ a, ∀ y ∈ b, x + 50 ≤ y)
          (shiftChains last cs) := by
      intro last cs
      induction cs generalizing last with
      | nil => intro _ _ _; simp [shiftChains]
      | cons c rest ih =>
        intro hne' hmono' hnn'
        cases rest with
        | nil => simp [shiftChains]
        | cons d rest' =>
          simp only [shiftChains]
          rw [List.chain'_cons]
          constructor
          · intro x hx y hy
            simp only [List.mem_map] at hx hy
            obtain ⟨x0, hx0, rfl⟩ := hx
            obtain ⟨y0, hy0, rfl⟩ := hy
            have hclast : x0 ≤ c.getLastD 0 :=
              le_getLastD_of_sorted (hmono' c (by simp)) x0 hx0
            have hy0nn : 0 ≤ y0 := hnn' d (by simp) y0 hy0
            rw [getLastD_map_add (hne' c (by simp)) last]
            omega
          · have := ih ((c.map (· + last)).getLastD 0 + 50)
              (fun c' hc' => hne' c' (by simp [hc']))
              (fun c' hc' => hmono' c' (by simp [hc']))
              (fun c' hc' x hx => hnn' c' (by simp [hc']) x hx)
            simpa [shiftChains] using this
    exact key 0 chains hne hmono hnn

/-- Witness for `prep_pdb_residue_index_spec` at the concrete two-chain
structure `[[1,2,3],[0,5]]` (shifted: `[[1,2,3],[53,58]]`). -/
theorem prep_pdb_residue_index_spec_witness :
    (prep_pdb_residue_index [[1, 2, 3], [0, 5]]).head? = some [1, 2, 3]
    ∧ List.Chain' (fun a b => ∀ x ∈ a, ∀ y ∈ b, x + 50 ≤ y)
        (prep_pdb_residue_index [[1, 2, 3], [0, 5]]) := by
  have h := prep_pdb_residue_index_spec [[1, 2, 3], [0, 5]]
    (by decide)
    (by intro c hc; fin_cases hc <;> norm_num [List.chain'_cons])
    (by decide)
  exact ⟨h.1, h.2.2⟩

/-! ## Missing-CB imputation (`add_cb`, prep.py lines 229-238) -/

/-- A 3-vector of exact rationals (the float arithmetic the modelled code
path performs is modelled exactly). -/
structure Vec3 where
  x : ℚ
  y : ℚ
  z : ℚ
deriving DecidableEq

def vadd (a b : Vec3) : Vec3 := ⟨a.x + b.x, a.y + b.y, a.z + b.z⟩

def vsub (a b : Vec3) : Vec3 := ⟨a.x - b.x, a.y - b.y, a.z - b.z⟩

def smul (q : ℚ) (v : Vec3) : Vec3 := ⟨q * v.x, q * v.y, q * v.z⟩

def cross (a b : Vec3) : Vec3 :=
  ⟨a.y * b.z - a.z * b.y, a.z * b.x - a.x * b.z, a.x * b.y - a.y * b.x⟩

/-- Modelled from the spec: `_np_get_cb` (defined in
`colabdesign/shared/protein.py`, which is not among the given sources) — the
"fixed geometric formula (a linear combination of the backbone bond
vectors)" synthesizing a CB position from the N, CA, C positions.  The
conventional idealized-geometry coefficients are used on the bond vectors
`b = CA - N`, `c = C - CA` and their cross product `a = b × c`:
`CB = -0.58273431 a + 0.56802827 b - 0.54067466 c + CA`. -/
def npGetCb (n ca c : Vec3) : Vec3 :=
  let b := vsub ca n
  let cV := vsub c ca
  let a := cross b cV
  vadd (vadd (vadd (smul (-58273431 / 100000000) a) (smul (56802827 / 100000000) b))
    (smul (-54067466 / 100000000) cV)) ca

/-- `residue_constants.atom_order` slots for the four atoms `add_cb`
touches: N, CA, C, CB are atom37 slots 0, 1, 2, 3. -/
def atomN : Nat := 0

def atomCA : Nat := 1

def atomC : Nat := 2

def atomCB : Nat := 3

/-- One row of the per-residue batch: atom37 positions and the 0/1
resolution mask. -/
structure Residue where
  pos : List Vec3
  mask : List ℚ
deriving DecidableEq

/-- The per-residue action of `add_cb` (the source is vectorized over the
residue axis): `np.where(m[:,cb,None], p[:,cb,:], cb_atoms)` keeps the
existing CB position when its mask is truthy and otherwise installs the
synthesized one, and the new CB mask is `(m[:,cb] + m_N*m_CA*m_C) > 0`
stored as a 0/1 float. -/
def addCbRes (r : Residue) : Residue :=
  let pN := r.pos.getD atomN ⟨0, 0, 0⟩
  let pCA := r.pos.getD atomCA ⟨0, 0, 0⟩
  let pC := r.pos.getD atomC ⟨0, 0, 0⟩
  let mN := r.mask.getD atomN 0
  let mCA := r.mask.getD atomCA 0
  let mC := r.mask.getD atomC 0
  let mCB := r.mask.getD atomCB 0
  let cb_atoms := npGetCb pN pCA pC
  let cb_mask := mN * mCA * mC
  { pos := r.pos.set atomCB (if mCB ≠ 0 then r.pos.getD atomCB ⟨0, 0, 0⟩ else cb_atoms),
    mask := r.mask.set atomCB (if mCB + cb_mask > 0 then 1 else 0) }

/-- `add_cb` over the whole batch. -/
def add_cb (batch : List Residue) : List Residue := batch.map addCbRes

/-- The claim's resolution rule, following the spec's words: a residue's CB
is marked resolved if it already was, or if **at least one** of the
contributing backbone atoms N, CA, C was resolved. -/
def claimCbMask (r : Residue) : ℚ :=
  if r.mask.getD atomCB 0 ≠ 0 then 1
  else if r.mask.getD atomN 0 ≠ 0 ∨ r.mask.getD atomCA 0 ≠ 0 ∨ r.mask.getD atomC 0 ≠ 0
    then 1 else 0

theorem getD_set_ne {α : Type} : ∀ (l : List α) (i j : Nat), i ≠ j → ∀ (a : α) (d : α),
    (l.set i a).getD j d = l.getD j d := by
  intro l
  induction l with
  | nil => intro i j _ a d; simp
  | cons h t ih =>
    intro i j hij a d
    match i, j with
    | 0, 0 => exact absurd rfl hij
    | 0, j + 1 => simp [List.set]
    | i + 1, 0 => simp [List.set]
    | i + 1, j + 1 =>
      simp only [List.set, List.getD_cons_succ]
      exact ih i j (by omega) a d

theorem getD_set_self {α : Type} : ∀ (l : List α) (i : Nat), i < l.length →
    ∀ (a : α) (d : α), (l.set i a).getD i d = a := by
  intro l
  induction l with
  | nil => intro i hi; simp at hi
  | cons h t ih =>
    intro i hi a d
    match i with
    | 0 => rfl
    | i + 1 =>
      simp only [List.set, List.getD_cons_succ]
      exact ih i (by simpa using hi) a d

/-- C1 counterexample: a residue with unresolved CB whose backbone atom N is
resolved but CA and C are not.  The claim ("resolved if at least one
contributing backbone atom was resolved") demands the CB be marked resolved,
but `add_cb` computes the **product** `m_N * m_CA * m_C` and leaves it
unresolved. -/
theorem add_cb_mask_counterexample :
    (addCbRes ⟨List.replicate 4 ⟨0, 0, 0⟩, [1, 0, 0, 0]⟩).mask.getD atomCB 0
      ≠ claimCbMask ⟨List.replicate 4 ⟨0, 0, 0⟩, [1, 0, 0, 0]⟩
    ∧ (addCbRes ⟨List.replicate 4 ⟨0, 0, 0⟩, [1, 0, 0, 0]⟩).mask.getD atomCB 0 = 0
    ∧ claimCbMask ⟨List.replicate 4 ⟨0, 0, 0⟩, [1, 0, 0, 0]⟩ = 1 := by
  refine ⟨?_, ?_, ?_⟩ <;>
    norm_num [addCbRes, claimCbMask, atomCB, atomN, atomCA, atomC]

/-- C1 (amended): for a residue with 0/1 masks over the atom37 slots, the
CB synthesized by `add_cb` is the fixed backbone linear combination when the
CB was unresolved, the original position is kept (and the residue stays
resolved) when it was resolved, and the new CB mask is 1 exactly when the CB
was already resolved or **all three** backbone anchors N, CA, C were
resolved; every other atom slot is untouched. -/
theorem add_cb_spec (r : Residue)
    (hml : 3 < r.mask.length)
    (hN : r.mask.getD atomN 0 = 0 ∨ r.mask.getD atomN 0 = 1)
    (hCA : r.mask.getD atomCA 0 = 0 ∨ r.mask.getD atomCA 0 = 1)
    (hC : r.mask.getD atomC 0 = 0 ∨ r.mask.getD atomC 0 = 1)
    (hCB : r.mask.getD atomCB 0 = 0 ∨ r.mask.getD atomCB 0 = 1) :
    ((addCbRes r).mask.getD atomCB 0 = 1
      ↔ (r.mask.getD atomCB 0 = 1
          ∨ (r.mask.getD atomN 0 = 1 ∧ r.mask.getD atomCA 0 = 1
              ∧ r.mask.getD atomC 0 = 1)))
    ∧ (3 < r.pos.length →
        (addCbRes r).pos.getD atomCB ⟨0, 0, 0⟩
          = if r.mask.getD atomCB 0 = 1 then r.pos.getD atomCB ⟨0, 0, 0⟩
            else npGetCb (r.pos.getD atomN ⟨0, 0, 0⟩) (r.pos.getD atomCA ⟨0, 0, 0⟩)
                (r.pos.getD atomC ⟨0, 0, 0⟩))
    ∧ (∀ i, i ≠ atomCB →
        (addCbRes r).mask.getD i 0 = r.mask.getD i 0
        ∧ (addCbRes r).pos.getD i ⟨0, 0, 0⟩ = r.pos.getD i ⟨0, 0, 0⟩) := by
  have hmask : (addCbRes r).mask.getD atomCB 0
      = if r.mask.getD atomCB 0
            + r.mask.getD atomN 0 * r.mask.getD atomCA 0 * r.mask.getD atomC 0 > 0
        then 1 else 0 := by
    simp only [addCbRes]
    exact getD_set_self _ _ hml _ _
  refine ⟨?_, ?_, ?_⟩
  · rw [hmask]
    rcases hCB with h | h <;> rcases hN with hn | hn <;> rcases hCA with hca | hca <;>
      rcases hC with hc | hc <;> rw [h, hn, hca, hc] <;> norm_num
  · intro hpl
    have hpos : (addCbRes r).pos.getD atomCB ⟨0, 0, 0⟩
        = if r.mask.getD atomCB 0 ≠ 0 then r.pos.getD atomCB ⟨0, 0, 0⟩
          else npGetCb (r.pos.getD atomN ⟨0, 0, 0⟩) (r.pos.getD atomCA ⟨0, 0, 0⟩)
              (r.pos.getD atomC ⟨0, 0, 0⟩) := by
      simp only [addCbRes]
      exact getD_set_self _ _ hpl _ _
    rw [hpos]
    rcases hCB with h | h <;> rw [h] <;> norm_num
  · intro i hi
    constructor
    · simp only [addCbRes]
      exact getD_set_ne _ _ _ (fun h => hi h.symm) _ _
    · simp only [addCbRes]
      exact getD_set_ne _ _ _ (fun h => hi h.symm) _ _

/-- Witness for `add_cb_spec`: a residue with resolved backbone N, CA, C
and unresolved CB gets a synthesized, resolved CB. -/
theorem add_cb_spec_witness :
    ((addCbRes ⟨[⟨1, 0, 0⟩, ⟨0, 1, 0⟩, ⟨0, 0, 1⟩, ⟨0, 0, 0⟩],
        [1, 1, 1, 0]⟩).mask.getD atomCB 0 = 1
      ↔ ((⟨[⟨1, 0, 0⟩, ⟨0, 1, 0⟩, ⟨0, 0, 1⟩, ⟨0, 0, 0⟩],
          [1, 1, 1, 0]⟩ : Residue).mask.getD atomCB 0 = 1
        ∨ ((⟨[⟨1, 0, 0⟩, ⟨0, 1, 0⟩, ⟨0, 0, 1⟩, ⟨0, 0, 0⟩],
            [1, 1, 1, 0]⟩ : Residue).mask.getD atomN 0 = 1
          ∧ (⟨[⟨1, 0, 0⟩, ⟨0, 1, 0⟩, ⟨0, 0, 1⟩, ⟨0, 0, 0⟩],
            [1, 1, 1, 0]⟩ : Residue).mask.getD atomCA 0 = 1
          ∧ (⟨[⟨1, 0, 0⟩, ⟨0, 1, 0⟩, ⟨0, 0, 1⟩, ⟨0, 0, 0⟩],
            [1, 1, 1, 0]⟩ : Residue).mask.getD atomC 0 = 1))) :=
  (add_cb_spec ⟨[⟨1, 0, 0⟩, ⟨0, 1, 0⟩, ⟨0, 0, 1⟩, ⟨0, 0, 0⟩], [1, 1, 1, 0]⟩
    (by decide) (by decide) (by decide) (by decide) (by decide)).1

/-! ## Binder hallucination assembly (`_prep_binder`, prep.py lines 95-104) -/

theorem flatMap_singleton_map {α : Type} (l : List Nat) (f : Nat → α) :
    (l.flatMap fun i => [f i]) = l.map f := by
  induction l with
  | nil => rfl
  | cons a t ih => simp [ih]

theorem indices_singleton (m : Nat) :
    indices [m] = (List.range m).map fun i => [i] := by
  have h : indices [m] = (List.range m).flatMap fun i => [[i]] := by
    simp [indices]
  rw [h]
  exact flatMap_singleton_map _ _

theorem indices_pair (m : Nat) :
    indices [1, m] = (List.range m).map fun i => [0, i] := by
  have h1 : indices [1, m] = (indices [m]).map (0 :: ·) := by
    simp [indices, List.range_succ]
  rw [h1, indices_singleton, List.map_map]
  rfl

/-- Trailing zero-padding of a `[1, n]` tensor (a batched row) to `[1, m]`,
written out elementwise. -/
theorem padData_pair (n m : Nat) (d : List Int) :
    padData ⟨[1, n], d⟩ [1, m]
      = ⟨[1, m], (List.range m).map fun j => if j < n then d.getD j 0 else 0⟩ := by
  simp only [padData, indices_pair, List.map_map]
  congr 1
  apply List.map_congr_left
  intro j hj
  simp only [Function.comp]
  have hib : inB [0, j] [1, n] = decide (j < n) := by
    simp [inB]
  have hget : Tensor.get ⟨[1, n], d⟩ [0, j] = d.getD j 0 := by
    simp [Tensor.get, flatIndex]
  rw [hib, hget]
  by_cases h : j < n <;> simp [h]

theorem map_range_getD (d : List Int) (n : Nat) (h : d.length = n) :
    ((List.range n).map fun j => d.getD j 0) = d := by
  apply List.ext_getElem (by simp [h])
  intro i h1 h2
  simp only [List.getElem_map, List.getElem_range]
  exact List.getD_eq_getElem _ _ (by omega)

/-- `np.ones_like`. -/
def ones_like (t : Tensor) : Tensor := ⟨t.shape, List.replicate t.data.length 1⟩

/-- Modelled from the spec (§4.3, §6): the runner configuration's declared
shape schema (`cfg.data.eval.feat`, defined by the external model
configuration, not among the given sources) for the three features this
development tracks — `residue_index`, `seq_mask` are per-residue,
`msa_mask` is per-MSA-row and per-residue. -/
def afSchema : List (String × List SDim) :=
  [("residue_index", [SDim.numRes]), ("seq_mask", [SDim.numRes]),
    ("msa_mask", [SDim.numMsaSeq, SDim.numRes])]

/-- The per-entry overwrite `_prep_binder`'s hallucination branch performs
after padding (prep.py lines 102-104): install the binder residue index
`pdb["residue_index"][-1] + np.arange(binder_len) + 50` into the binder
region of the (batched, shape `[1, L]`) residue index, and force `seq_mask`
and `msa_mask` to all-ones. -/
def binderOverwrite (target_idx : List Int) (binder_len : Nat)
    (e : String × Tensor) : String × Tensor :=
  if e.1 = "residue_index" then
    (e.1, ⟨e.2.shape, e.2.data.take target_idx.length
      ++ (List.range binder_len).map fun i => target_idx.getLastD 0 + (i : Int) + 50⟩)
  else if e.1 = "seq_mask" ∨ e.1 = "msa_mask" then (e.1, ones_like e.2)
  else e

/-- The binder-hallucination branch of `_prep_binder` on the model inputs
(prep.py lines 95-104): pad the inputs to `target_len + binder_len`, then
apply the residue-index and mask overwrites. -/
def prep_binder_halluc (inputs : List (String × Tensor)) (cfg : EvalCfg)
    (target_idx : List Int) (binder_len : Nat) :
    Except PadError (List (String × Tensor)) :=
  (make_fixed_size inputs cfg (target_idx.length + binder_len) true).map fun padded =>
    padded.map (binderOverwrite target_idx binder_len)

/-- C6: binder design in hallucination mode with `target_len = 30`,
`binder_len = 10`: the inputs are padded to total length 40, the binder
region of the residue index is the 10 consecutive integers starting at
(target's last residue index + 50), and the seq/MSA masks are all-ones over
the full padded region. -/
theorem prep_binder_halluc_spec (target_idx sq ms : List Int) (R C T E : Nat)
    (h30 : target_idx.length = 30) (hCT : T < C)
    (hR : (R : Int) ≤ (C : Int) - (T : Int)) :
    prep_binder_halluc
      [("residue_index", ⟨[1, 30], target_idx⟩), ("seq_mask", ⟨[1, 30], sq⟩),
        ("msa_mask", ⟨[1, R, 30], ms⟩)]
      ⟨C, T, E, afSchema⟩ target_idx 10
    = .ok
      [("residue_index",
          ⟨[1, 40], target_idx
            ++ (List.range 10).map fun i => target_idx.getLastD 0 + (i : Int) + 50⟩),
        ("seq_mask", ⟨[1, 40], List.replicate 40 1⟩),
        ("msa_mask", ⟨[1, C - T, 40], List.replicate ((C - T) * 40) 1⟩)] := by
  have hri : processEntry ⟨C, T, E, afSchema⟩ 40 true ("residue_index", ⟨[1, 30], target_idx⟩)
      = .ok ("residue_index", padData ⟨[1, 30], target_idx⟩ [1, 40]) := rfl
  have hsq : processEntry ⟨C, T, E, afSchema⟩ 40 true ("seq_mask", ⟨[1, 30], sq⟩)
      = .ok ("seq_mask", padData ⟨[1, 30], sq⟩ [1, 40]) := rfl
  have hms : processEntry ⟨C, T, E, afSchema⟩ 40 true ("msa_mask", ⟨[1, R, 30], ms⟩)
      = .ok ("msa_mask", padData ⟨[1, R, 30], ms⟩ [1, C - T, 40]) := by
    have hrd : resolveDim ⟨C, T, E, afSchema⟩ 40 R .numMsaSeq = (C : Int) - T := by
      simp only [resolveDim, padSizeMapGet]
      rw [if_neg (by omega)]
    have hb : resolveDim ⟨C, T, E, afSchema⟩ 40 1 .batch = (1 : Int) := rfl
    have h30' : resolveDim ⟨C, T, E, afSchema⟩ 40 30 .numRes = (40 : Int) := rfl
    have hsch : lookupSchema ⟨C, T, E, afSchema⟩ true "msa_mask"
        = some [SDim.batch, SDim.numMsaSeq, SDim.numRes] := rfl
    have hpt : padTensor "msa_mask" ⟨[1, R, 30], ms⟩
        [SDim.batch, SDim.numMsaSeq, SDim.numRes] ⟨C, T, E, afSchema⟩ 40
        = .ok (padData ⟨[1, R, 30], ms⟩ [1, C - T, 40]) := by
      simp only [padTensor, List.zipWith_cons_cons, List.zipWith_nil_left,
        List.zipWith_nil_right, hrd, hb, h30']
      rw [if_neg (by simp), if_neg (by simp), if_pos ?hall]
      case hall =>
        simp only [List.zip_cons_cons, List.zip_nil_right, List.all_cons,
          List.all_nil, Bool.and_eq_true, decide_eq_true_eq]
        refine ⟨by norm_num, by simpa using hR, by norm_num⟩
      have htn : ((C : Int) - T).toNat = C - T := by omega
      have h1 : ([(1 : Int), (C : Int) - T, 40].map Int.toNat) = [1, C - T, 40] := by
        simp [htn]
      rw [h1]
    simp only [processEntry]
    rw [if_neg (by decide), hsch]
    simp only [hpt]
  have hmfs : make_fixed_size
      [("residue_index", ⟨[1, 30], target_idx⟩), ("seq_mask", ⟨[1, 30], sq⟩),
        ("msa_mask", ⟨[1, R, 30], ms⟩)] ⟨C, T, E, afSchema⟩ 40 true
      = .ok [("residue_index", padData ⟨[1, 30], target_idx⟩ [1, 40]),
          ("seq_mask", padData ⟨[1, 30], sq⟩ [1, 40]),
          ("msa_mask", padData ⟨[1, R, 30], ms⟩ [1, C - T, 40])] := by
    simp only [make_fixed_size, mapEntries, hri, hsq, hms]
  have hov1 : binderOverwrite target_idx 10
      ("residue_index", padData ⟨[1, 30], target_idx⟩ [1, 40])
      = ("residue_index",
          ⟨[1, 40], target_idx
            ++ (List.range 10).map fun i => target_idx.getLastD 0 + (i : Int) + 50⟩) := by
    simp only [binderOverwrite, if_true]
    rw [padData_pair]
    have htake : ((List.range 40).map fun j =>
        if j < 30 then target_idx.getD j 0 else 0).take target_idx.length
        = target_idx := by
      rw [h30, ← List.map_take, List.take_range]
      have hmin : min 30 40 = 30 := by omega
      rw [hmin]
      have : ∀ j ∈ List.range 30,
          (if j < 30 then target_idx.getD j 0 else 0) = target_idx.getD j 0 := by
        intro j hj
        rw [if_pos (List.mem_range.mp hj)]
      rw [List.map_congr_left this, map_range_getD target_idx 30 h30]
    rw [htake]
  have hov2 : binderOverwrite target_idx 10 ("seq_mask", padData ⟨[1, 30], sq⟩ [1, 40])
      = ("seq_mask", ⟨[1, 40], List.replicate 40 1⟩) := by
    simp only [binderOverwrite]
    rw [if_pos (Or.inl trivial)]
    have hlen : (padData ⟨[1, 30], sq⟩ [1, 40]).data.length = 40 := by
      have := padData_wf ⟨[1, 30], sq⟩ [1, 40]
      simpa [Tensor.wf] using this
    simp only [ones_like, hlen]
    rw [if_neg (by decide)]
    rfl
  have hov3 : binderOverwrite target_idx 10
      ("msa_mask", padData ⟨[1, R, 30], ms⟩ [1, C - T, 40])
      = ("msa_mask", ⟨[1, C - T, 40], List.replicate ((C - T) * 40) 1⟩) := by
    simp only [binderOverwrite]
    rw [if_pos (Or.inr trivial)]
    have hlen : (padData ⟨[1, R, 30], ms⟩ [1, C - T, 40]).data.length = (C - T) * 40 := by
      have := padData_wf ⟨[1, R, 30], ms⟩ [1, C - T, 40]
      simp only [Tensor.wf] at this
      rw [this]
      have hsh : (padData ⟨[1, R, 30], ms⟩ [1, C - T, 40]).shape = [1, C - T, 40] := rfl
      rw [hsh]
      simp only [List.prod_cons, List.prod_nil]
      ring
    simp only [ones_like, hlen]
    rw [if_neg (by decide)]
    rfl
  have h3040 : target_idx.length + 10 = 40 := by omega
  simp only [prep_binder_halluc, h3040, hmfs, Except.map, List.map_cons, List.map_nil,
    hov1, hov2, hov3]

/-- Witness for `prep_binder_halluc_spec` at the concrete target index
`0..29` with one MSA row and `max_msa_clusters = 2`, `max_templates = 1`. -/
theorem prep_binder_halluc_spec_witness :
    prep_binder_halluc
      [("residue_index", ⟨[1, 30], intRange 30⟩),
        ("seq_mask", ⟨[1, 30], List.replicate 30 0⟩),
        ("msa_mask", ⟨[1, 1, 30], List.replicate 30 0⟩)]
      ⟨2, 1, 0, afSchema⟩ (intRange 30) 10
    = .ok
      [("residue_index",
          ⟨[1, 40], intRange 30
            ++ (List.range 10).map fun i => (intRange 30).getLastD 0 + (i : Int) + 50⟩),
        ("seq_mask", ⟨[1, 40], List.replicate 40 1⟩),
        ("msa_mask", ⟨[1, 2 - 1, 40], List.replicate ((2 - 1) * 40) 1⟩)] :=
  prep_binder_halluc_spec (intRange 30) (List.replicate 30 0) (List.replicate 30 0)
    1 2 1 0 (by decide) (by decide) (by decide)

/-! ## Design-option snapshotting (`self._opt = copy_dict(self.opt)` before
`self.restart(...)`; prep.py lines 110-111, 152-153, 180-181, 216-217)

Python dicts are heap references: in-place mutation of `self.opt` is only
guaranteed not to touch the snapshot because `copy_dict` is a deep copy.  We
model a two-level heap (top-level option dicts whose entries are scalars or
references to leaf dicts such as `weights` and `template`), the dict
mutations the design loop performs, and each protocol's trace of option
updates ending in snapshot-then-restart. -/

/-- A top-level options dict: scalar entries plus named references to nested
(leaf) dicts. -/
structure TopCell where
  scalars : List (String × ℚ)
  subs : List (String × Nat)
deriving DecidableEq

/-- The heap: leaf dicts and top-level dicts, addressed by list index. -/
structure Heap8 where
  leaves : List (List (String × ℚ))
  tops : List TopCell
deriving DecidableEq

/-- Fresh references `n, n+1, ...` for the copied nested dicts. -/
def renumberFrom (n : Nat) : List (String × Nat) → List (String × Nat)
  | [] => []
  | p :: rest => (p.1, n) :: renumberFrom (n + 1) rest

/-- Modelled from the spec: `copy_dict` (defined in
`colabdesign/shared/utils.py`, which is not among the given sources) —
"deep-copying the accumulated design-option configuration into a frozen
snapshot": allocate a fresh leaf cell for every nested dict and a fresh
top cell, copying all entries; return the new heap and the copy's
reference. -/
def copy_dict (h : Heap8) (r : Nat) : Heap8 × Nat :=
  let t := h.tops.getD r ⟨[], []⟩
  (⟨h.leaves ++ t.subs.map fun p => h.leaves.getD p.2 [],
    h.tops ++ [⟨t.scalars, renumberFrom h.leaves.length t.subs⟩]⟩, h.tops.length)

/-- `d[k] = v` on an association list. -/
def assocSet (k : String) (v : ℚ) : List (String × ℚ) → List (String × ℚ)
  | [] => [(k, v)]
  | p :: rest => if p.1 = k then (k, v) :: rest else p :: assocSet k v rest

/-- One in-place mutation of a live options dict: rebind a top-level scalar
entry (`opt["pos"] = ...`), or mutate an entry of a nested dict
(`opt["weights"]["con"] = ...`). -/
inductive OptMut where
  | setScalar (k : String) (v : ℚ)
  | setNested (sub k : String) (v : ℚ)
deriving DecidableEq

def applyMut (h : Heap8) (r : Nat) : OptMut → Heap8
  | .setScalar k v =>
    ⟨h.leaves, h.tops.set r ⟨assocSet k v (h.tops.getD r ⟨[], []⟩).scalars,
      (h.tops.getD r ⟨[], []⟩).subs⟩⟩
  | .setNested sub k v =>
    match (h.tops.getD r ⟨[], []⟩).subs.lookup sub with
    | some lr => ⟨h.leaves.set lr (assocSet k v (h.leaves.getD lr [])), h.tops⟩
    | none => h

def applyMuts (h : Heap8) (r : Nat) (ms : List OptMut) : Heap8 :=
  ms.foldl (applyMut · r ·) h

/-- The fully dereferenced value of a top-level options dict. -/
structure OptView where
  scalars : List (String × ℚ)
  subs : List (String × List (String × ℚ))
deriving DecidableEq

def readTop (h : Heap8) (r : Nat) : OptView :=
  let t := h.tops.getD r ⟨[], []⟩
  ⟨t.scalars, t.subs.map fun p => (p.1, h.leaves.getD p.2 [])⟩

/-- A valid options reference: in range, with in-range nested refs. -/
def wfRef (h : Heap8) (r : Nat) : Prop :=
  r < h.tops.length
  ∧ ∀ p ∈ (h.tops.getD r ⟨[], []⟩).subs, p.2 < h.leaves.length

theorem renumberFrom_ge :
    ∀ (l : List (String × Nat)) (n : Nat), ∀ p ∈ renumberFrom n l, n ≤ p.2 := by
  intro l
  induction l with
  | nil => intro n p hp; simp [renumberFrom] at hp
  | cons a rest ih =>
    intro n p hp
    rcases List.mem_cons.mp hp with rfl | hp'
    · simp
    · have := ih (n + 1) p hp'
      omega

theorem lookup_mem_pairs {l : List (String × Nat)} {k : String} {v : Nat}
    (h : l.lookup k = some v) : (k, v) ∈ l := by
  induction l with
  | nil => simp [List.lookup] at h
  | cons a rest ih =>
    simp only [List.lookup] at h
    cases hk : (k == a.1) with
    | true =>
      rw [hk] at h
      simp only [Option.some.injEq] at h
      subst h
      have : k = a.1 := eq_of_beq hk
      subst this
      exact List.mem_cons_self _ _
    | false =>
      rw [hk] at h
      exact List.mem_cons_of_mem _ (ih h)

theorem applyMut_tops_length (h : Heap8) (r : Nat) (m : OptMut) :
    (applyMut h r m).tops.length = h.tops.length := by
  cases m with
  | setScalar k v => simp [applyMut]
  | setNested sub k v =>
    simp only [applyMut]
    cases (h.tops.getD r ⟨[], []⟩).subs.lookup sub <;> simp

theorem applyMut_leaves_length (h : Heap8) (r : Nat) (m : OptMut) :
    (applyMut h r m).leaves.length = h.leaves.length := by
  cases m with
  | setScalar k v => simp [applyMut]
  | setNested sub k v =>
    simp only [applyMut]
    cases (h.tops.getD r ⟨[], []⟩).subs.lookup sub <;> simp

theorem applyMut_wf {h : Heap8} {r : Nat} (m : OptMut) (hwf : wfRef h r) :
    wfRef (applyMut h r m) r := by
  obtain ⟨hr, hsubs⟩ := hwf
  cases m with
  | setScalar k v =>
    refine ⟨by simpa [applyMut] using hr, ?_⟩
    intro p hp
    simp only [applyMut] at hp ⊢
    rw [getD_set_self _ _ hr] at hp
    exact hsubs p hp
  | setNested sub k v =>
    cases hlk : (h.tops.getD r ⟨[], []⟩).subs.lookup sub with
    | none =>
      have he : applyMut h r (.setNested sub k v) = h := by
        simp only [applyMut, hlk]
      rw [he]
      exact ⟨hr, hsubs⟩
    | some lr =>
      have he : applyMut h r (.setNested sub k v)
          = ⟨h.leaves.set lr (assocSet k v (h.leaves.getD lr [])), h.tops⟩ := by
        simp only [applyMut, hlk]
      rw [he]
      exact ⟨hr, fun p hp => by simpa using hsubs p hp⟩

theorem applyMuts_tops_length (h : Heap8) (r : Nat) (ms : List OptMut) :
    (applyMuts h r ms).tops.length = h.tops.length := by
  induction ms generalizing h with
  | nil => rfl
  | cons m rest ih =>
    simp only [applyMuts, List.foldl_cons] at *
    rw [ih (applyMut h r m), applyMut_tops_length]

theorem applyMuts_wf {h : Heap8} {r : Nat} (ms : List OptMut) (hwf : wfRef h r) :
    wfRef (applyMuts h r ms) r := by
  induction ms generalizing h with
  | nil => exact hwf
  | cons m rest ih =>
    simp only [applyMuts, List.foldl_cons] at *
    exact ih (applyMut_wf m hwf)

/-- The heart of the snapshot guarantee: after `copy_dict`, no sequence of
in-place mutations of the live options dict changes the dereferenced value
of the snapshot. -/
theorem copy_dict_snapshot_invariant (h : Heap8) (r : Nat)
    (hwf : wfRef h r) (muts : List OptMut) :
    readTop (applyMuts (copy_dict h r).1 r muts) (copy_dict h r).2
      = readTop (copy_dict h r).1 (copy_dict h r).2 := by
  obtain ⟨hr, hsubs⟩ := hwf
  have hcd2 : (copy_dict h r).2 = h.tops.length := rfl
  set t := h.tops.getD r ⟨[], []⟩ with ht
  set n := h.leaves.length with hn
  set s := h.tops.length with hs
  set snapCell : TopCell := ⟨t.scalars, renumberFrom n t.subs⟩ with hsnap
  set h' := (copy_dict h r).1 with hh'
  have hinit1 : h'.tops.length = s + 1 := by simp [hh', copy_dict, hs]
  have hinit2 : h'.tops.getD s ⟨[], []⟩ = snapCell := by
    simp only [hh', copy_dict]
    rw [List.getD_append_right _ _ _ _ (by omega)]
    simp only [hs, Nat.sub_self]
    rfl
  have hinit4 : (h'.tops.getD r ⟨[], []⟩).subs = t.subs := by
    simp only [hh', copy_dict]
    rw [List.getD_append _ _ _ _ hr]
  have main : ∀ (ms : List OptMut) (h2 : Heap8),
      h2.tops.length = s + 1 →
      h2.tops.getD s ⟨[], []⟩ = snapCell →
      (∀ p ∈ snapCell.subs, h2.leaves.getD p.2 [] = h'.leaves.getD p.2 []) →
      (h2.tops.getD r ⟨[], []⟩).subs = t.subs →
      (applyMuts h2 r ms).tops.getD s ⟨[], []⟩ = snapCell
      ∧ ∀ p ∈ snapCell.subs,
          (applyMuts h2 r ms).leaves.getD p.2 [] = h'.leaves.getD p.2 [] := by
    intro ms
    induction ms with
    | nil => intro h2 _ h1 h2' _; exact ⟨h1, h2'⟩
    | cons m rest ih =>
      intro h2 hlen h1 h2' h3
      have hstep : (applyMut h2 r m).tops.length = s + 1
          ∧ (applyMut h2 r m).tops.getD s ⟨[], []⟩ = snapCell
          ∧ (∀ p ∈ snapCell.subs,
              (applyMut h2 r m).leaves.getD p.2 [] = h'.leaves.getD p.2 [])
          ∧ ((applyMut h2 r m).tops.getD r ⟨[], []⟩).subs = t.subs := by
        cases m with
        | setScalar k v =>
          refine ⟨by simpa [applyMut] using hlen, ?_, ?_, ?_⟩
          · simp only [applyMut]
            rw [getD_set_ne _ _ _ (by omega)]
            exact h1
          · intro p hp
            simpa [applyMut] using h2' p hp
          · simp only [applyMut]
            rw [getD_set_self _ _ (by omega)]
            exact h3
        | setNested sub k v =>
          cases hlk : (h2.tops.getD r ⟨[], []⟩).subs.lookup sub with
          | none =>
            have he : applyMut h2 r (.setNested sub k v) = h2 := by
              simp only [applyMut, hlk]
            rw [he]
            exact ⟨hlen, h1, h2', h3⟩
          | some lr =>
            have he : applyMut h2 r (.setNested sub k v)
                = ⟨h2.leaves.set lr (assocSet k v (h2.leaves.getD lr [])), h2.tops⟩ := by
              simp only [applyMut, hlk]
            have hmem := lookup_mem_pairs (h3 ▸ hlk)
            have hlr : lr < n := hsubs (sub, lr) hmem
            rw [he]
            refine ⟨by simpa using hlen, h1, ?_, h3⟩
            intro p hp
            have hge : n ≤ p.2 := renumberFrom_ge t.subs n p hp
            show (h2.leaves.set lr (assocSet k v (h2.leaves.getD lr []))).getD p.2 []
              = h'.leaves.getD p.2 []
            rw [getD_set_ne _ _ _ (by omega)]
            exact h2' p hp
      have := ih (applyMut h2 r m) hstep.1 hstep.2.1 hstep.2.2.1 hstep.2.2.2
      simpa [applyMuts, List.foldl_cons] using this
  have hfin := main muts h' hinit1 hinit2 (fun p _ => rfl) hinit4
  rw [hcd2]
  simp only [readTop, ← hs, hfin.1, hinit2]
  congr 1
  apply List.map_congr_left
  intro p hp
  rw [hfin.2 p hp]

/-! The four protocol-assembly traces.  Each is the sequence of option
updates the source performs, as a list of mutations, followed by the
snapshot (`self._opt = copy_dict(self.opt)`) and the external `restart`. -/

/-- A step of a protocol-assembly procedure acting on the option state. -/
inductive Step where
  | mut (m : OptMut)
  | snapshot
  | restart
deriving DecidableEq

/-- The option-relevant state of the `_af_prep` object: the heap, the
reference held by `self.opt`, and the snapshot reference `self._opt`. -/
structure PrepState where
  h : Heap8
  optRef : Nat
  snapRef : Option Nat
deriving DecidableEq

def execStep (st : PrepState) : Step → PrepState
  | .mut m => { st with h := applyMut st.h st.optRef m }
  | .snapshot =>
    let c := copy_dict st.h st.optRef
    { st with h := c.1, snapRef := some c.2 }
  | .restart => st

def runTrace (st : PrepState) (T : List Step) : PrepState := T.foldl execStep st

/-- `self.opt["weights"].update({k: v})`, one key at a time. -/
def updW (k : String) (v : ℚ) : OptMut := .setNested "weights" k v

/-- The option updates of `_prep_binder` (prep.py lines 66, 93-94, 105):
the template dropout, then the weight updates of the redesign or
hallucination branch. -/
def prep_binder_muts (redesign use_binder_template : Bool) : List OptMut :=
  [.setNested "template" "dropout" (if use_binder_template then 0 else 1)]
  ++ (if redesign then
        [updW "dgram_cce" 1, updW "fape" 0, updW "rmsd" 0, updW "con" 0,
          updW "i_pae" (1/100), updW "i_con" 0]
      else [updW "con" (1/2), updW "i_pae" (1/100), updW "i_con" (1/2)])

def prep_binder_steps (redesign use_binder_template : Bool) : List Step :=
  (prep_binder_muts redesign use_binder_template).map Step.mut
    ++ [.snapshot, .restart]

/-- The option updates of `_prep_fixbb` (prep.py lines 131, 147). -/
def prep_fixbb_muts (copies : Nat) (rep : Bool) : List OptMut :=
  [updW "dgram_cce" 1, updW "rmsd" 0, updW "con" 0, updW "fape" 0]
  ++ (if 1 < copies ∧ ¬rep then [updW "i_pae" (1/100), updW "i_con" 0] else [])

def prep_fixbb_steps (copies : Nat) (rep : Bool) : List Step :=
  (prep_fixbb_muts copies rep).map Step.mut ++ [.snapshot, .restart]

/-- The option updates of `_prep_hallucination` (prep.py lines 171, 177). -/
def prep_hallucination_muts (copies : Nat) (rep : Bool) : List OptMut :=
  [updW "con" 1]
  ++ (if 1 < copies ∧ ¬rep then [updW "i_pae" (1/100), updW "i_con" (1/10)] else [])

def prep_hallucination_steps (copies : Nat) (rep : Bool) : List Step :=
  (prep_hallucination_muts copies rep).map Step.mut ++ [.snapshot, .restart]

/-- The option updates of `_prep_partial` (prep.py lines 189-190, 198-201,
211-215); `pos` abstracts the value stored in `opt["pos"]`. -/
def prep_part_muts (fix_seq use_sidechains : Bool) (pos : ℚ) : List OptMut :=
  [.setScalar "fix_seq" (if use_sidechains ∨ fix_seq then 1 else 0),
    .setScalar "pos" pos]
  ++ [updW "dgram_cce" 1, updW "con" 1, updW "fape" 0, updW "rmsd" 0]
  ++ (if use_sidechains then [updW "sc_rmsd" (1/10), updW "sc_fape" (1/10)] else [])

def prep_part_steps (fix_seq use_sidechains : Bool) (pos : ℚ) : List Step :=
  (prep_part_muts fix_seq use_sidechains pos).map Step.mut ++ [.snapshot, .restart]

theorem runTrace_map_mut (st : PrepState) (l : List OptMut) :
    runTrace st (l.map Step.mut) = { st with h := applyMuts st.h st.optRef l } := by
  induction l generalizing st with
  | nil => simp [runTrace, applyMuts]
  | cons m rest ih =>
    simp only [runTrace, List.map_cons, List.foldl_cons, applyMuts, execStep] at *
    rw [ih { st with h := applyMut st.h st.optRef m }]

/-- What it means for a protocol trace to implement the snapshot discipline:
it ends with snapshot immediately followed by restart, it leaves `self.opt`
alone, `self._opt` holds the freshly allocated deep copy, and no later
in-place mutation of `self.opt` (top-level or nested, e.g. individual loss
weights) changes the snapshot's dereferenced value. -/
def snapshotSpec (T : List Step) : Prop :=
  T.getLast? = some .restart
  ∧ T.dropLast.getLast? = some .snapshot
  ∧ ∀ st0 : PrepState, wfRef st0.h st0.optRef →
      (runTrace st0 T).optRef = st0.optRef
      ∧ (runTrace st0 T).snapRef = some st0.h.tops.length
      ∧ ∀ muts, readTop (applyMuts (runTrace st0 T).h (runTrace st0 T).optRef muts)
          st0.h.tops.length
        = readTop (runTrace st0 T).h st0.h.tops.length

theorem snapshotSpec_of_muts (A : List OptMut) :
    snapshotSpec (A.map Step.mut ++ [.snapshot, .restart]) := by
  refine ⟨?_, ?_, ?_⟩
  · rw [show A.map Step.mut ++ [Step.snapshot, Step.restart]
      = (A.map Step.mut ++ [Step.snapshot]) ++ [Step.restart] by simp]
    simp
  · rw [show A.map Step.mut ++ [Step.snapshot, Step.restart]
      = (A.map Step.mut ++ [Step.snapshot]) ++ [Step.restart] by simp]
    rw [List.dropLast_concat]
    simp
  · intro st0 hwf
    have hsplit : runTrace st0 (A.map Step.mut ++ [.snapshot, .restart])
        = execStep (execStep (runTrace st0 (A.map Step.mut)) .snapshot) .restart := by
      simp [runTrace, List.foldl_append]
    rw [hsplit, runTrace_map_mut]
    set hA := applyMuts st0.h st0.optRef A with hhA
    have hlen : hA.tops.length = st0.h.tops.length := applyMuts_tops_length _ _ _
    have hwfA : wfRef hA st0.optRef := applyMuts_wf A hwf
    refine ⟨rfl, ?_, ?_⟩
    · simp only [execStep]
      rw [show (copy_dict hA st0.optRef).2 = hA.tops.length from rfl, hlen]
    · intro muts
      have := copy_dict_snapshot_invariant hA st0.optRef hwfA muts
      rw [show (copy_dict hA st0.optRef).2 = hA.tops.length from rfl, hlen] at this
      simpa [execStep] using this

/-- C8: every one of the four protocol-assembly variants deep-copies the
accumulated design options into the snapshot `self._opt` immediately before
invoking `restart`, so that any later in-place mutation of `self.opt` —
including mutation of nested values such as individual loss weights —
leaves the snapshot unchanged. -/
theorem opt_snapshot_before_restart :
    (∀ redesign use_binder_template : Bool,
        snapshotSpec (prep_binder_steps redesign use_binder_template))
    ∧ (∀ (copies : Nat) (rep : Bool), snapshotSpec (prep_fixbb_steps copies rep))
    ∧ (∀ (copies : Nat) (rep : Bool),
        snapshotSpec (prep_hallucination_steps copies rep))
    ∧ (∀ (fix_seq use_sidechains : Bool) (pos : ℚ),
        snapshotSpec (prep_part_steps fix_seq use_sidechains pos)) :=
  ⟨fun r u => snapshotSpec_of_muts (prep_binder_muts r u),
    fun c rp => snapshotSpec_of_muts (prep_fixbb_muts c rp),
    fun c rp => snapshotSpec_of_muts (prep_hallucination_muts c rp),
    fun f u p => snapshotSpec_of_muts (prep_part_muts f u p)⟩

/-- Witness for `opt_snapshot_before_restart`: running the binder trace on a
concrete heap and then mutating the live weight `con` leaves the snapshot's
dereferenced value unchanged. -/
theorem opt_snapshot_before_restart_witness :
    (runTrace ⟨⟨[[("con", 0)], [("dropout", 0)]],
        [⟨[("fix_seq", 0)], [("weights", 0), ("template", 1)]⟩]⟩, 0, none⟩
        (prep_binder_steps false false)).snapRef
      = some (⟨⟨[[("con", 0)], [("dropout", 0)]],
          [⟨[("fix_seq", 0)], [("weights", 0), ("template", 1)]⟩]⟩, 0, none⟩
            : PrepState).h.tops.length
    ∧ readTop (applyMuts
          (runTrace ⟨⟨[[("con", 0)], [("dropout", 0)]],
            [⟨[("fix_seq", 0)], [("weights", 0), ("template", 1)]⟩]⟩, 0, none⟩
            (prep_binder_steps false false)).h
          (runTrace ⟨⟨[[("con", 0)], [("dropout", 0)]],
            [⟨[("fix_seq", 0)], [("weights", 0), ("template", 1)]⟩]⟩, 0, none⟩
            (prep_binder_steps false false)).optRef
          [OptMut.setNested "weights" "con" 5])
        (⟨⟨[[("con", 0)], [("dropout", 0)]],
          [⟨[("fix_seq", 0)], [("weights", 0), ("template", 1)]⟩]⟩, 0, none⟩
            : PrepState).h.tops.length
      = readTop (runTrace ⟨⟨[[("con", 0)], [("dropout", 0)]],
            [⟨[("fix_seq", 0)], [("weights", 0), ("template", 1)]⟩]⟩, 0, none⟩
            (prep_binder_steps false false)).h
          (⟨⟨[[("con", 0)], [("dropout", 0)]],
            [⟨[("fix_seq", 0)], [("weights", 0), ("template", 1)]⟩]⟩, 0, none⟩
              : PrepState).h.tops.length := by
  have h := (opt_snapshot_before_restart.1 false false).2.2
    ⟨⟨[[("con", 0)], [("dropout", 0)]],
      [⟨[("fix_seq", 0)], [("weights", 0), ("template", 1)]⟩]⟩, 0, none⟩
    ⟨by decide, by decide⟩
  exact ⟨h.2.1, h.2.2 [OptMut.setNested "weights" "con" 5]⟩

end AfPrep
